import Mathlib

/-!
Shallow embedding of the acyclic graph reducer in src/src/V3GraphAcyc.cpp
(class GraphAcyc and entry point V3Graph::acyclic).

The original graph and the work graph (called m_breakGraph in the source)
are modelled as explicit lists of vertex and edge records kept in creation
order, which matches the linked-list iteration order of the host graph
library.  Mutation of a vertex or edge through a pointer becomes a keyed
update of the corresponding record.  The scratch slot userp that associates
an original vertex with its work vertex is modelled by reusing the original
vertex id as the work vertex id; the userp slot used inside simplifyDup is
modelled by a local finite map, and the numeric user slot is a field.
-/

namespace VAcyc

/-- One edge of the original (caller) graph.  The host library stores a
weight (a C++ int), a cutable flag and a cut mark; the collaborator method
cut() marks the edge cut.  The field oeid is the identity of the edge. -/
structure OrigEdge where
  oeid : Nat
  src : Nat
  dst : Nat
  weight : Int
  cutable : Bool
  cut : Bool
deriving Repr, DecidableEq

/-- A vertex of the work graph, mirroring class GraphAcycVertex: the first
original vertex it represents, the rank and numeric user scratch of the
host vertex, plus m_storedRank, m_onWorkList and m_deleted. -/
structure WorkVertex where
  wvid : Nat
  origv : Nat
  rank : Nat
  user : Nat
  storedRank : Nat
  onWorkList : Bool
  deleted : Bool
deriving Repr, DecidableEq

/-- An edge of the work graph, mirroring class GraphAcycEdge: endpoints
(work vertex ids), weight, cutable flag, cut mark, and the EdgeGroup of
original edge ids reached through the userp slot (OrigEdgeList). -/
structure WorkEdge where
  weid : Nat
  src : Nat
  dst : Nat
  weight : Int
  cutable : Bool
  cut : Bool
  grp : List Nat
deriving Repr, DecidableEq

/-- The mutable state of one GraphAcyc run: the original edges (whose cut
marks are updated in place), the original vertex list, the work graph
(verts, edges in creation order), the work queue m_work (front first), the
m_placeStep counter, a fresh-id source for new work edges, and a count of
calls to the collaborator error channel (v3error). -/
structure AcycState where
  origEdges : List OrigEdge
  origVerts : List Nat
  verts : List WorkVertex
  edges : List WorkEdge
  work : List Nat
  placeStep : Nat
  nextWeid : Nat
  errors : Nat
deriving Repr, DecidableEq

/-- Look up a work vertex by id (dereferencing a GraphAcycVertex pointer). -/
def findVtx (s : AcycState) (id : Nat) : Option WorkVertex :=
  s.verts.find? (fun v => v.wvid == id)

/-- Update the work vertex with the given id. -/
def updVtx (s : AcycState) (id : Nat) (f : WorkVertex → WorkVertex) : AcycState :=
  { s with verts := s.verts.map (fun v => if v.wvid == id then f v else v) }

/-- Look up a work edge by id (dereferencing a V3GraphEdge pointer). -/
def findEdge (s : AcycState) (id : Nat) : Option WorkEdge :=
  s.edges.find? (fun e => e.weid == id)

/-- Update the work edge with the given id. -/
def updEdge (s : AcycState) (id : Nat) (f : WorkEdge → WorkEdge) : AcycState :=
  { s with edges := s.edges.map (fun e => if e.weid == id then f e else e) }

/-- Remove a work edge (unlinkDelete of an edge). -/
def delEdge (s : AcycState) (id : Nat) : AcycState :=
  { s with edges := s.edges.filter (fun e => !(e.weid == id)) }

/-- The out-edge list of a work vertex, in creation order. -/
def outEdges (s : AcycState) (id : Nat) : List WorkEdge :=
  s.edges.filter (fun e => e.src == id)

/-- The in-edge list of a work vertex, in creation order. -/
def inEdges (s : AcycState) (id : Nat) : List WorkEdge :=
  s.edges.filter (fun e => e.dst == id)

/-- The rank of the work vertex with the given id. -/
def rankOf (s : AcycState) (id : Nat) : Nat :=
  match findVtx s id with
  | some v => v.rank
  | none => 0

/-- GraphAcyc::workPush: add a vertex to the work queue unless its
m_onWorkList flag is already set. -/
def workPush (s : AcycState) (id : Nat) : AcycState :=
  match findVtx s id with
  | none => s
  | some v =>
    if v.onWorkList then s
    else
      let s1 := updVtx s id (fun w => { w with onWorkList := true })
      { s1 with work := s1.work ++ [id] }

/-- GraphAcyc::workPop: unlink the head of the work queue and clear its
m_onWorkList flag. -/
def workPop (s : AcycState) : AcycState :=
  match s.work with
  | [] => s
  | id :: rest =>
    let s1 := updVtx s id (fun w => { w with onWorkList := false })
    { s1 with work := rest }

/-- GraphAcyc::cutOrigEdge: mark the work edge cut and cut every original
edge recorded in its EdgeGroup. -/
def cutOrigEdge (s : AcycState) (id : Nat) : AcycState :=
  match findEdge s id with
  | none => s
  | some e =>
    let s1 := updEdge s id (fun x => { x with cut := true })
    { s1 with
      origEdges := e.grp.foldl
        (fun oes oid =>
          oes.map (fun oe => if oe.oeid == oid then { oe with cut := true } else oe))
        s1.origEdges }

/-- GraphAcyc::edgeFromEdge: make a new work edge between the given
endpoints using an old edge as a template; the new edge takes the weight,
the cutable flag and the EdgeGroup pointer of the template. -/
def edgeFromEdge (s : AcycState) (old : WorkEdge) (fromv tov : Nat) : AcycState :=
  { s with
    edges := s.edges ++
      [{ weid := s.nextWeid, src := fromv, dst := tov, weight := old.weight,
         cutable := old.cutable, cut := false, grp := old.grp }],
    nextWeid := s.nextWeid + 1 }

/-- The caller-supplied follow predicate gated by a nonzero weight
(GraphAcyc::origFollowEdge). -/
def origFollowEdge (pred : OrigEdge → Bool) (e : OrigEdge) : Bool :=
  !(e.weight == 0) && pred e

/-- The fields of a fresh work vertex made for original vertex ov by
GraphAcyc::buildGraph; the work vertex id doubles as the userp slot of the
original vertex, so it equals ov. -/
def mkAVertex (ov : Nat) : WorkVertex :=
  { wvid := ov, origv := ov, rank := 0, user := 0, storedRank := 0,
    onWorkList := false, deleted := false }

/-- GraphAcyc::buildGraphIterate: for every out-edge of the original vertex
ov that is followed and whose destination is colored, replicate the edge
into the work graph and record the original edge in its EdgeGroup. -/
def buildGraphIterate (pred : OrigEdge → Bool) (color : Nat → Nat)
    (s : AcycState) (ov : Nat) : AcycState :=
  (s.origEdges.filter (fun e => e.src == ov)).foldl
    (fun st e =>
      if origFollowEdge pred e && !(color e.dst == 0) then
        { st with
          edges := st.edges ++
            [{ weid := st.nextWeid, src := ov, dst := e.dst, weight := e.weight,
               cutable := e.cutable, cut := false, grp := [e.oeid] }],
          nextWeid := st.nextWeid + 1 }
      else st)
    s

/-- GraphAcyc::buildGraph: make a work vertex for every colored original
vertex, then build the work edges vertex by vertex. -/
def buildGraph (pred : OrigEdge → Bool) (color : Nat → Nat)
    (s : AcycState) : AcycState :=
  let s1 := { s with
    verts := s.verts ++ (s.origVerts.filter (fun ov => !(color ov == 0))).map mkAVertex }
  s1.origVerts.foldl
    (fun st ov => if !(color ov == 0) then buildGraphIterate pred color st ov else st)
    s1

/-- GraphAcyc::simplifyNone: a vertex with no inputs or no outputs cannot
be on a loop; mark it deleted and remove its edges, pushing the far
endpoint of every removed edge. -/
def simplifyNone (s : AcycState) (vid : Nat) : AcycState :=
  match findVtx s vid with
  | none => s
  | some v =>
    if v.deleted then s
    else if (inEdges s vid).isEmpty || (outEdges s vid).isEmpty then
      let s1 := updVtx s vid (fun w => { w with deleted := true })
      let s2 := (outEdges s1 vid).foldl
        (fun st e => delEdge (workPush st e.dst) e.weid) s1
      (inEdges s2 vid).foldl
        (fun st e => delEdge (workPush st e.src) e.weid) s2
    else s

/-- GraphAcyc::simplifyOne: bypass a vertex with exactly one in-edge and
one out-edge, neither endpoint being the vertex itself; the new direct
edge is built from the template edge chosen by the cutable and weight
comparison of the source. -/
def simplifyOne (s : AcycState) (vid : Nat) : AcycState :=
  match findVtx s vid with
  | none => s
  | some v =>
    if v.deleted then s
    else
      match inEdges s vid, outEdges s vid with
      | [inE], [outE] =>
        if !(inE.src == vid) && !(outE.dst == vid) then
          let templateEdge :=
            if inE.cutable && (!outE.cutable || inE.weight < outE.weight)
            then inE else outE
          let s1 := updVtx s vid (fun w => { w with deleted := true })
          let s2 := edgeFromEdge s1 templateEdge inE.src outE.dst
          let s3 := delEdge (delEdge s2 inE.weid) outE.weid
          workPush (workPush s3 inE.src) outE.dst
        else s
      | _, _ => s

/-- The in-edge loop of GraphAcyc::simplifyOut over a snapshot of in-edge
ids.  Returns the state and whether the rule aborted: when an in-edge
comes from the vertex itself the collaborator error channel is invoked,
the in-edge is forced cutable and the loop returns early. -/
def simplifyOutLoop (vid outDst : Nat) : List Nat → AcycState → AcycState × Bool
  | [], s => (s, false)
  | eid :: rest, s =>
    match findEdge s eid with
    | none => simplifyOutLoop vid outDst rest s
    | some inE =>
      if inE.src == vid then
        let s1 := { s with errors := s.errors + 1 }
        (updEdge s1 eid (fun e => { e with cutable := true }), true)
      else
        let s1 := edgeFromEdge s inE inE.src outDst
        let s2 := workPush (delEdge s1 eid) inE.src
        simplifyOutLoop vid outDst rest s2

/-- GraphAcyc::simplifyOut: a vertex with a single uncutable out-edge has
all its in-edges reassigned to the out-edge destination; an in-edge from
the vertex itself signals an uncutable cycle and aborts the rule after
reporting an error and forcing the in-edge cutable. -/
def simplifyOut (s : AcycState) (vid : Nat) : AcycState :=
  match findVtx s vid with
  | none => s
  | some v =>
    if v.deleted then s
    else
      match outEdges s vid with
      | [outE] =>
        if !outE.cutable then
          let s1 := updVtx s vid (fun w => { w with deleted := true })
          let ins := (inEdges s1 vid).map (fun e => e.weid)
          match simplifyOutLoop vid outE.dst ins s1 with
          | (s2, true) => s2
          | (s2, false) => workPush (delEdge s2 outE.weid) outE.dst
        else s
      | _ => s

/-- The out-edge loop of GraphAcyc::simplifyDup over a snapshot of out-edge
ids, with the userp marks of the destination vertices carried as a local
map from work vertex id to the marked edge id. -/
def simplifyDupLoop (vid : Nat) :
    List Nat → (Nat → Option Nat) → AcycState → AcycState
  | [], _, s => s
  | eid :: rest, marks, s =>
    match findEdge s eid with
    | none => simplifyDupLoop vid rest marks s
    | some e =>
      match marks e.dst with
      | none =>
        simplifyDupLoop vid rest (fun x => if x == e.dst then some eid else marks x) s
      | some prevId =>
        match findEdge s prevId with
        | none =>
          simplifyDupLoop vid rest (fun x => if x == e.dst then some eid else marks x) s
        | some prev =>
          if !prev.cutable then
            let s1 := delEdge s eid
            simplifyDupLoop vid rest marks (workPush (workPush s1 e.dst) vid)
          else if !e.cutable then
            let s1 := delEdge s prevId
            simplifyDupLoop vid rest (fun x => if x == e.dst then some eid else marks x)
              (workPush (workPush s1 e.dst) vid)
          else
            let s1 := updEdge s prevId
              (fun p => { p with weight := p.weight + e.weight, grp := p.grp ++ e.grp })
            let s2 := delEdge s1 eid
            simplifyDupLoop vid rest marks (workPush (workPush s2 e.dst) vid)

/-- GraphAcyc::simplifyDup: remove or merge duplicate out-edges to the same
destination.  The clearing loop over the destinations userp slots is
modelled by starting from the empty mark map. -/
def simplifyDup (s : AcycState) (vid : Nat) : AcycState :=
  match findVtx s vid with
  | none => s
  | some v =>
    if v.deleted then s
    else simplifyDupLoop vid ((outEdges s vid).map (fun e => e.weid)) (fun _ => none) s

/-- GraphAcyc::cutBasic: cut any cutable self-loop of the vertex. -/
def cutBasic (s : AcycState) (vid : Nat) : AcycState :=
  match findVtx s vid with
  | none => s
  | some v =>
    if v.deleted then s
    else
      ((outEdges s vid).map (fun e => e.weid)).foldl
        (fun st eid =>
          match findEdge st eid with
          | none => st
          | some e =>
            if e.cutable && e.dst == vid then
              workPush (delEdge (cutOrigEdge st eid) eid) vid
            else st)
        s

/-- GraphAcyc::cutBackward: mark the sources of uncutable in-edges through
the numeric user slot, then cut every cutable out-edge whose destination
is marked. -/
def cutBackward (s : AcycState) (vid : Nat) : AcycState :=
  match findVtx s vid with
  | none => s
  | some v =>
    if v.deleted then s
    else
      let s1 := (outEdges s vid).foldl
        (fun st e => updVtx st e.dst (fun w => { w with user := 0 })) s
      let s2 := (inEdges s1 vid).foldl
        (fun st e =>
          if !e.cutable then updVtx st e.src (fun w => { w with user := 1 }) else st)
        s1
      ((outEdges s2 vid).map (fun e => e.weid)).foldl
        (fun st eid =>
          match findEdge st eid with
          | none => st
          | some e =>
            if e.cutable then
              match findVtx st e.dst with
              | none => st
              | some w =>
                if !(w.user == 0) then workPush (delEdge (cutOrigEdge st eid) eid) vid
                else st
            else st)
        s2

/-- GraphAcyc::deleteMarked: sweep every vertex marked deleted out of the
work graph; unlinkDelete of a vertex also removes its remaining edges. -/
def deleteMarked (s : AcycState) : AcycState :=
  let deadIds := (s.verts.filter (fun v => v.deleted)).map (fun v => v.wvid)
  { s with
    verts := s.verts.filter (fun v => !v.deleted),
    edges := s.edges.filter
      (fun e => !(deadIds.contains e.src || deadIds.contains e.dst)) }

/-- The body of the work loop of GraphAcyc::simplify applied to one popped
vertex: the four rewrite rules always run, the two cut rules run only when
allowCut is set and the fAcycSimp option of the enclosing tool is on. -/
def simplifyVertexStep (allowCut fAcycSimp : Bool) (s : AcycState) (vid : Nat) :
    AcycState :=
  let s1 := simplifyNone s vid
  let s2 := simplifyOne s1 vid
  let s3 := simplifyOut s2 vid
  let s4 := simplifyDup s3 vid
  if allowCut && fAcycSimp then cutBackward (cutBasic s4 vid) vid else s4

/-- The work loop of GraphAcyc::simplify, driven to quiescence with fuel. -/
def simplifyLoop (allowCut fAcycSimp : Bool) : Nat → AcycState → AcycState
  | 0, s => s
  | fuel + 1, s =>
    match s.work with
    | [] => s
    | vid :: _ =>
      simplifyLoop allowCut fAcycSimp fuel
        (simplifyVertexStep allowCut fAcycSimp (workPop s) vid)

/-- GraphAcyc::simplify: push every work vertex, run the work loop until
quiescent, then sweep the vertices marked deleted. -/
def simplify (allowCut fAcycSimp : Bool) (fuel : Nat) (s : AcycState) : AcycState :=
  let s1 := s.verts.foldl (fun st v => workPush st v.wvid) s
  deleteMarked (simplifyLoop allowCut fAcycSimp fuel s1)

/-- struct GraphAcycEdgeCmp: lhs goes first when its weight is larger;
equal weights give false so that stable_sort keeps the input order. -/
def GraphAcycEdgeCmp (lhs rhs : WorkEdge) : Bool :=
  if lhs.weight > rhs.weight then true
  else if lhs.weight < rhs.weight then false
  else false

/-- The candidate list of the first collection loop of GraphAcyc::place:
for every work vertex in graph order, every out-edge with nonzero weight
that is cutable. -/
def placeCollect (s : AcycState) : List WorkEdge :=
  s.verts.foldl
    (fun acc v =>
      acc ++ (outEdges s v.wvid).filter (fun e => !(e.weight == 0) && e.cutable))
    []

/-- Insert an edge into an already processed list, placing it before the
first element the comparator orders strictly after it; equal weights keep
the earlier element first. -/
def stableInsert (a : WorkEdge) : List WorkEdge → List WorkEdge
  | [] => [a]
  | b :: t => if GraphAcycEdgeCmp a b then a :: b :: t else b :: stableInsert a t

/-- The processing order of GraphAcyc::place: the candidate list after
std::stable_sort with GraphAcycEdgeCmp, modelled as the stable insertion
sort with that comparator (the output of a stable sort is determined
uniquely by the comparator, so any stable sort models std::stable_sort). -/
def placeOrder (s : AcycState) : List WorkEdge :=
  (placeCollect s).foldl (fun acc e => stableInsert e acc) []

/-- The out-edge loop of GraphAcyc::placeIterate: recurse into every
out-edge with nonzero weight that is not cutable, propagating a detected
loop immediately. -/
def placeIterateList (f : AcycState → Nat → Nat → Bool × AcycState) :
    AcycState → List WorkEdge → Nat → Bool × AcycState
  | s, [], _ => (false, s)
  | s, e :: rest, currentRank =>
    if !(e.weight == 0) && !e.cutable then
      match f s e.dst (currentRank + 1) with
      | (true, s1) => (true, s1)
      | (false, s1) => placeIterateList f s1 rest currentRank
    else placeIterateList f s rest currentRank

/-- GraphAcyc::placeIterate, with fuel bounding the recursion depth: assign
currentRank to the vertex unless its rank is already high enough, report a
loop when the vertex was already visited during this placement step, save
storedRank and push the vertex the first time its rank is touched, and
recurse over the uncutable out-edges. -/
def placeIterate : Nat → AcycState → Nat → Nat → Bool × AcycState
  | 0, s, _, _ => (false, s)
  | fuel + 1, s, vid, currentRank =>
    match findVtx s vid with
    | none => (false, s)
    | some v =>
      if currentRank ≤ v.rank then (false, s)
      else if v.user == s.placeStep then (true, s)
      else
        let s1 := updVtx s vid (fun w => { w with user := s.placeStep })
        let s2 :=
          if !v.onWorkList then
            workPush (updVtx s1 vid (fun w => { w with storedRank := w.rank })) vid
          else s1
        let s3 := updVtx s2 vid (fun w => { w with rank := currentRank })
        match placeIterateList (placeIterate fuel) s3 (outEdges s3 vid) currentRank with
        | (true, s4) => (true, s4)
        | (false, s4) => (false, updVtx s4 vid (fun w => { w with user := 0 }))

/-- The commit loop of GraphAcyc::placeTryEdge: pop the whole work queue
without restoring anything. -/
def drainCommitAux : Nat → AcycState → AcycState
  | 0, s => s
  | n + 1, s =>
    match s.work with
    | [] => s
    | _ :: _ => drainCommitAux n (workPop s)

/-- The rollback loop of GraphAcyc::placeTryEdge: pop each vertex and
restore its rank from storedRank. -/
def drainRestoreAux : Nat → AcycState → AcycState
  | 0, s => s
  | n + 1, s =>
    match s.work with
    | [] => s
    | vid :: _ =>
      drainRestoreAux n (updVtx (workPop s) vid (fun w => { w with rank := w.storedRank }))

/-- GraphAcyc::placeTryEdge: bump placeStep, tentatively flip the edge to
uncutable and rerank from its destination; on success drain the work queue
keeping the new ranks, on a detected loop flip the edge back, cut it
together with every original edge it represents, remove it, and drain the
work queue restoring the saved ranks. -/
def placeTryEdge (fuel : Nat) (s : AcycState) (eid : Nat) : AcycState :=
  let s0 := { s with placeStep := s.placeStep + 1 }
  match findEdge s0 eid with
  | none => s0
  | some e =>
    let s1 := updEdge s0 eid (fun x => { x with cutable := false })
    match placeIterate fuel s1 e.dst (rankOf s1 e.src + 1) with
    | (false, s2) => drainCommitAux s2.work.length s2
    | (true, s2) =>
      let s3 := updEdge s2 eid (fun x => { x with cutable := true })
      let s4 := delEdge (cutOrigEdge s3 eid) eid
      drainRestoreAux s4.work.length s4

/-- GraphAcyc::place: clear the numeric user slot of every vertex, collect
and stable-sort the cutable candidate edges, reset placeStep to 10 and try
to place each edge in order. -/
def place (fuel : Nat) (s : AcycState) : AcycState :=
  let s1 := { s with verts := s.verts.map (fun v => { v with user := 0 }) }
  let sorted := placeOrder s1
  let s2 := { s1 with placeStep := 10 }
  (sorted.map (fun e => e.weid)).foldl (fun st eid => placeTryEdge fuel st eid) s2

/-- Bounded reachability over the followed original edges: there is a
nonempty path of at most fuel edges from a to b, every edge satisfying
origFollowEdge. -/
def reachStep (pred : OrigEdge → Bool) (es : List OrigEdge) :
    Nat → Nat → Nat → Bool
  | 0, _, _ => false
  | fuel + 1, a, b =>
    es.any (fun e =>
      origFollowEdge pred e && e.src == a &&
        (e.dst == b || reachStep pred es fuel e.dst b))

/-- Modelled from the spec: the collaborator V3Graph::stronglyConnected is
not under src.  Per the spec it assigns color 0 to vertices not on any
cycle reachable through the follow predicate, and a distinct nonzero color
to each strongly connected component with a cycle (scenario S6 shows a
vertex with a followed self-loop is colored).  A vertex on a cycle gets
one plus the position of the first original vertex mutually reachable with
it, which is distinct per component and deterministic. -/
def sccColor (pred : OrigEdge → Bool) (vs : List Nat) (es : List OrigEdge)
    (v : Nat) : Nat :=
  let n := vs.length + 1
  if reachStep pred es n v v then
    match vs.findIdx?
      (fun u => u == v ||
        (reachStep pred es n u v && reachStep pred es n v u)) with
    | some i => i + 1
    | none => 1
  else 0

/-- V3GraphEdge::followNotCutable together with the weight gate of the rank
algorithm of the collaborator: follow uncutable work edges of nonzero
weight. -/
def followNotCutable (e : WorkEdge) : Bool :=
  !(e.weight == 0) && !e.cutable

/-- V3GraphEdge::followAlwaysTrue together with the weight gate of the rank
algorithm of the collaborator. -/
def followAlwaysTrue (e : WorkEdge) : Bool :=
  !(e.weight == 0)

/-- One relaxation pass of the modelled rank collaborator: walk the work
edges in order and raise the rank of each followed destination to one more
than the rank of its source where needed. -/
def rankPass (follow : WorkEdge → Bool) (s : AcycState) : AcycState :=
  s.edges.foldl
    (fun st e =>
      if follow e && rankOf st e.dst < rankOf st e.src + 1 then
        updVtx st e.dst (fun w => { w with rank := rankOf st e.src + 1 })
      else st)
    s

/-- Modelled from the spec: the collaborator V3Graph::rank is not under
src.  Per the spec it assigns ranks so that every followed edge satisfies
rank of the destination at least one more than rank of the source; this is
computed by bounded relaxation passes, which suffices on graphs that are
acyclic along the followed edges. -/
def rankAll (follow : WorkEdge → Bool) : Nat → AcycState → AcycState
  | 0, s => s
  | fuel + 1, s => rankAll follow fuel (rankPass follow s)

/-- The state of a GraphAcyc driver before anything ran: the original
graph, an empty work graph, an empty queue. -/
def initState (origVerts : List Nat) (origEdges : List OrigEdge) : AcycState :=
  { origEdges := origEdges, origVerts := origVerts, verts := [], edges := [],
    work := [], placeStep := 0, nextWeid := 0, errors := 0 }

/-- Fuel that is comfortably larger than any number of simplifier steps,
placement recursions or relaxation passes a state can need. -/
def bigFuel (s : AcycState) : Nat :=
  (s.verts.length + s.edges.length + 2) * (s.verts.length + s.edges.length + 2) * 8

/-- GraphAcyc::main: color the strongly connected components of the
original graph, build the work graph, simplify without and then with
cutting, rank along uncutable edges, place, and rank again as a final
check.  The diagnostic dumps have no effect on the state and are omitted.
The fAcycSimp option of the enclosing tool is passed through. -/
def mainAlg (pred : OrigEdge → Bool) (fAcycSimp : Bool)
    (origVerts : List Nat) (origEdges : List OrigEdge) : AcycState :=
  let color := sccColor pred origVerts origEdges
  let s0 := initState origVerts origEdges
  let s1 := buildGraph pred color s0
  let s2 := simplify false fAcycSimp (bigFuel s1) s1
  let s3 := simplify true fAcycSimp (bigFuel s2) s2
  let s4 := rankAll followNotCutable (s3.verts.length + 1) s3
  let s5 := place (bigFuel s4) s4
  rankAll followAlwaysTrue (s5.verts.length + 1) s5

/-- V3Graph::acyclic: the entry point, with the fAcycSimp option on as in a
default run of the enclosing tool. -/
def acyclic (pred : OrigEdge → Bool) (origVerts : List Nat)
    (origEdges : List OrigEdge) : AcycState :=
  mainAlg pred true origVerts origEdges

/-- The ids of the original edges marked cut in a state. -/
def cutSet (s : AcycState) : List Nat :=
  (s.origEdges.filter (fun e => e.cut)).map (fun e => e.oeid)

/-- Bounded reachability over the original edges that are followed and not
cut: the subgraph whose acyclicity the specification asserts. -/
def reachUncut (pred : OrigEdge → Bool) (es : List OrigEdge) :
    Nat → Nat → Nat → Bool
  | 0, _, _ => false
  | fuel + 1, a, b =>
    es.any (fun e =>
      origFollowEdge pred e && !e.cut && e.src == a &&
        (e.dst == b || reachUncut pred es fuel e.dst b))

/-- The subgraph of followed, uncut original edges has a directed cycle. -/
def origUncutHasCycle (pred : OrigEdge → Bool) (s : AcycState) : Bool :=
  s.origVerts.any (fun v =>
    reachUncut pred s.origEdges (s.origVerts.length + 1) v v)

/-! Basic facts about the state operations. -/

@[simp] theorem updVtx_work (s : AcycState) (id : Nat) (f : WorkVertex → WorkVertex) :
    (updVtx s id f).work = s.work := rfl

@[simp] theorem updVtx_edges (s : AcycState) (id : Nat) (f : WorkVertex → WorkVertex) :
    (updVtx s id f).edges = s.edges := rfl

@[simp] theorem updVtx_origEdges (s : AcycState) (id : Nat) (f : WorkVertex → WorkVertex) :
    (updVtx s id f).origEdges = s.origEdges := rfl

@[simp] theorem updVtx_placeStep (s : AcycState) (id : Nat) (f : WorkVertex → WorkVertex) :
    (updVtx s id f).placeStep = s.placeStep := rfl

@[simp] theorem updVtx_nextWeid (s : AcycState) (id : Nat) (f : WorkVertex → WorkVertex) :
    (updVtx s id f).nextWeid = s.nextWeid := rfl

@[simp] theorem updVtx_errors (s : AcycState) (id : Nat) (f : WorkVertex → WorkVertex) :
    (updVtx s id f).errors = s.errors := rfl

@[simp] theorem updEdge_work (s : AcycState) (id : Nat) (f : WorkEdge → WorkEdge) :
    (updEdge s id f).work = s.work := rfl

@[simp] theorem updEdge_verts (s : AcycState) (id : Nat) (f : WorkEdge → WorkEdge) :
    (updEdge s id f).verts = s.verts := rfl

@[simp] theorem updEdge_origEdges (s : AcycState) (id : Nat) (f : WorkEdge → WorkEdge) :
    (updEdge s id f).origEdges = s.origEdges := rfl

@[simp] theorem delEdge_work (s : AcycState) (id : Nat) :
    (delEdge s id).work = s.work := rfl

@[simp] theorem delEdge_verts (s : AcycState) (id : Nat) :
    (delEdge s id).verts = s.verts := rfl

@[simp] theorem delEdge_origEdges (s : AcycState) (id : Nat) :
    (delEdge s id).origEdges = s.origEdges := rfl

@[simp] theorem cutOrigEdge_work (s : AcycState) (id : Nat) :
    (cutOrigEdge s id).work = s.work := by
  unfold cutOrigEdge
  cases findEdge s id <;> rfl

@[simp] theorem cutOrigEdge_verts (s : AcycState) (id : Nat) :
    (cutOrigEdge s id).verts = s.verts := by
  unfold cutOrigEdge
  cases findEdge s id <;> rfl

@[simp] theorem edgeFromEdge_work (s : AcycState) (old : WorkEdge) (a b : Nat) :
    (edgeFromEdge s old a b).work = s.work := rfl

@[simp] theorem edgeFromEdge_verts (s : AcycState) (old : WorkEdge) (a b : Nat) :
    (edgeFromEdge s old a b).verts = s.verts := rfl

@[simp] theorem workPush_edges (s : AcycState) (id : Nat) :
    (workPush s id).edges = s.edges := by
  unfold workPush
  cases findVtx s id with
  | none => rfl
  | some v => by_cases h : v.onWorkList <;> simp [h]

@[simp] theorem workPush_origEdges (s : AcycState) (id : Nat) :
    (workPush s id).origEdges = s.origEdges := by
  unfold workPush
  cases findVtx s id with
  | none => rfl
  | some v => by_cases h : v.onWorkList <;> simp [h]

@[simp] theorem workPush_errors (s : AcycState) (id : Nat) :
    (workPush s id).errors = s.errors := by
  unfold workPush
  cases findVtx s id with
  | none => rfl
  | some v => by_cases h : v.onWorkList <;> simp [h]

@[simp] theorem workPop_work (s : AcycState) :
    (workPop s).work = s.work.tail := by
  unfold workPop
  cases hw : s.work with
  | nil => simp [hw]
  | cons a l => simp [hw]

/-- The commit drain empties the queue once given at least as much fuel as
the queue is long. -/
theorem drainCommitAux_empties :
    ∀ (n : Nat) (s : AcycState), s.work.length ≤ n → (drainCommitAux n s).work = [] := by
  intro n
  induction n with
  | zero =>
    intro s h
    have hw : s.work = [] := List.length_eq_zero.mp (Nat.le_zero.mp h)
    simp [drainCommitAux, hw]
  | succ n ih =>
    intro s h
    cases hw : s.work with
    | nil => simp [drainCommitAux, hw]
    | cons a l =>
      rw [hw] at h
      have hlen : (workPop s).work.length ≤ n := by
        rw [workPop_work, hw]
        exact Nat.le_of_succ_le_succ h
      simpa [drainCommitAux, hw] using ih (workPop s) hlen

/-- The rollback drain empties the queue once given at least as much fuel
as the queue is long. -/
theorem drainRestoreAux_empties :
    ∀ (n : Nat) (s : AcycState), s.work.length ≤ n → (drainRestoreAux n s).work = [] := by
  intro n
  induction n with
  | zero =>
    intro s h
    have hw : s.work = [] := List.length_eq_zero.mp (Nat.le_zero.mp h)
    simp [drainRestoreAux, hw]
  | succ n ih =>
    intro s h
    cases hw : s.work with
    | nil => simp [drainRestoreAux, hw]
    | cons a l =>
      rw [hw] at h
      have hlen : (updVtx (workPop s) a
          (fun w => { w with rank := w.storedRank })).work.length ≤ n := by
        rw [updVtx_work, workPop_work, hw]
        exact Nat.le_of_succ_le_succ h
      simpa [drainRestoreAux, hw] using ih _ hlen

/-- Claim C10: on every return of placeTryEdge the work queue is empty, in
the commit branch (no loop) as well as in the rollback branch (loop): both
drain loops run the queue down to nothing, so each placement attempt
starts with no stale vertices on the queue and saves a storedRank at most
once per vertex per attempt. -/
theorem placeTryEdge_empties_work_queue
    (fuel : Nat) (s : AcycState) (eid : Nat) (e : WorkEdge)
    (h : findEdge s eid = some e) :
    (placeTryEdge fuel s eid).work = [] := by
  have h1 : findEdge { s with placeStep := s.placeStep + 1 } eid = some e := h
  simp only [placeTryEdge, h1]
  rcases hp : placeIterate fuel
      (updEdge { s with placeStep := s.placeStep + 1 } eid
        (fun x => { x with cutable := false }))
      e.dst
      (rankOf (updEdge { s with placeStep := s.placeStep + 1 } eid
        (fun x => { x with cutable := false })) e.src + 1) with ⟨loop, s2⟩
  cases loop with
  | false => exact drainCommitAux_empties _ _ (Nat.le_refl _)
  | true => exact drainRestoreAux_empties _ _ (Nat.le_refl _)

/-- Witness for claim C10 at a concrete state: one vertex, one cutable
self-loop work edge, an empty queue before the attempt. -/
theorem placeTryEdge_empties_work_queue_witness :
    (placeTryEdge 9
      { origEdges := [{ oeid := 5, src := 0, dst := 0, weight := 1,
                        cutable := true, cut := false }],
        origVerts := [0],
        verts := [{ wvid := 0, origv := 0, rank := 0, user := 0, storedRank := 0,
                    onWorkList := false, deleted := false }],
        edges := [{ weid := 0, src := 0, dst := 0, weight := 1, cutable := true,
                    cut := false, grp := [5] }],
        work := [], placeStep := 10, nextWeid := 1, errors := 0 }
      0).work = [] :=
  placeTryEdge_empties_work_queue 9 _ 0
    { weid := 0, src := 0, dst := 0, weight := 1, cutable := true,
      cut := false, grp := [5] }
    (by decide)

/-! Claim C7: the candidate list of the placer and its processing order. -/

/-- The source comparator orders a strictly before b exactly when a is
heavier. -/
theorem GraphAcycEdgeCmp_iff (a b : WorkEdge) :
    GraphAcycEdgeCmp a b = true ↔ b.weight < a.weight := by
  unfold GraphAcycEdgeCmp
  split_ifs with h1 h2 <;> simp <;> omega

theorem stableInsert_perm (a : WorkEdge) :
    ∀ l : List WorkEdge, (stableInsert a l).Perm (a :: l) := by
  intro l
  induction l with
  | nil => exact List.Perm.refl _
  | cons b t ih =>
    unfold stableInsert
    by_cases hc : GraphAcycEdgeCmp a b = true
    · rw [if_pos hc]
    · rw [if_neg hc]
      exact (ih.cons b).trans (List.Perm.swap a b t)

theorem mem_stableInsert (x a : WorkEdge) (l : List WorkEdge) :
    x ∈ stableInsert a l ↔ x = a ∨ x ∈ l := by
  rw [(stableInsert_perm a l).mem_iff]
  exact List.mem_cons

theorem stableInsert_sorted (a : WorkEdge) :
    ∀ l : List WorkEdge, l.Pairwise (fun x y => y.weight ≤ x.weight) →
      (stableInsert a l).Pairwise (fun x y => y.weight ≤ x.weight) := by
  intro l
  induction l with
  | nil =>
    intro _
    exact List.pairwise_cons.mpr ⟨fun x hx => absurd hx (List.not_mem_nil x),
      List.Pairwise.nil⟩
  | cons b t ih =>
    intro h
    obtain ⟨hb, ht⟩ := List.pairwise_cons.mp h
    unfold stableInsert
    by_cases hc : GraphAcycEdgeCmp a b = true
    · rw [if_pos hc]
      have hba : b.weight < a.weight := (GraphAcycEdgeCmp_iff a b).mp hc
      refine List.pairwise_cons.mpr ⟨?_, h⟩
      intro x hx
      rcases List.mem_cons.mp hx with rfl | hxt
      · omega
      · have := hb x hxt
        omega
    · rw [if_neg hc]
      have hab : a.weight ≤ b.weight := by
        have := (GraphAcycEdgeCmp_iff a b).not.mp hc
        omega
      refine List.pairwise_cons.mpr ⟨?_, ih ht⟩
      intro x hx
      rcases (mem_stableInsert x a t).mp hx with rfl | hxt
      · exact hab
      · exact hb x hxt

theorem stableInsert_filter (a : WorkEdge) (w : Int) :
    ∀ l : List WorkEdge, l.Pairwise (fun x y => y.weight ≤ x.weight) →
      (stableInsert a l).filter (fun x => x.weight == w)
        = (if a.weight == w
            then l.filter (fun x => x.weight == w) ++ [a]
            else l.filter (fun x => x.weight == w)) := by
  intro l
  induction l with
  | nil =>
    intro _
    unfold stableInsert
    by_cases hp : (a.weight == w) = true <;> simp [List.filter_cons, hp]
  | cons b t ih =>
    intro h
    obtain ⟨hb, ht⟩ := List.pairwise_cons.mp h
    unfold stableInsert
    by_cases hc : GraphAcycEdgeCmp a b = true
    · rw [if_pos hc]
      have hba : b.weight < a.weight := (GraphAcycEdgeCmp_iff a b).mp hc
      by_cases hp : (a.weight == w) = true
      · have hw : a.weight = w := by simpa using hp
        have hnil : (b :: t).filter (fun x => x.weight == w) = [] := by
          rw [List.filter_eq_nil_iff]
          intro x hx
          rcases List.mem_cons.mp hx with rfl | hxt
          · simp only [beq_iff_eq]
            omega
          · have := hb x hxt
            simp only [beq_iff_eq]
            omega
        rw [if_pos hp, hnil, List.filter_cons, hp, hnil]
        rfl
      · rw [if_neg hp, List.filter_cons]
        simp only [hp]
        rfl
    · rw [if_neg hc]
      rw [List.filter_cons, List.filter_cons]
      by_cases hpb : (b.weight == w) = true
      · simp only [hpb, ih ht]
        by_cases hp : (a.weight == w) = true
        · simp [hp]
        · simp [hp]
      · simp [hpb, ih ht]

/-- The insertion fold of the modelled stable sort: membership is
preserved as a permutation, sortedness is established, and the filter at
any fixed weight keeps its order. -/
theorem foldInsert_perm :
    ∀ (l acc : List WorkEdge),
      (l.foldl (fun acc e => stableInsert e acc) acc).Perm (acc ++ l) := by
  intro l
  induction l with
  | nil => intro acc; simp
  | cons x t ih =>
    intro acc
    rw [List.foldl_cons]
    refine (ih (stableInsert x acc)).trans ?_
    have h1 : (stableInsert x acc ++ t).Perm ((x :: acc) ++ t) :=
      (stableInsert_perm x acc).append_right t
    refine h1.trans ?_
    rw [List.cons_append]
    exact (List.perm_middle).symm

theorem foldInsert_sorted :
    ∀ (l acc : List WorkEdge),
      acc.Pairwise (fun x y => y.weight ≤ x.weight) →
      (l.foldl (fun acc e => stableInsert e acc) acc).Pairwise
        (fun x y => y.weight ≤ x.weight) := by
  intro l
  induction l with
  | nil => intro acc h; exact h
  | cons x t ih =>
    intro acc h
    rw [List.foldl_cons]
    exact ih (stableInsert x acc) (stableInsert_sorted x acc h)

theorem foldInsert_filter (w : Int) :
    ∀ (l acc : List WorkEdge),
      acc.Pairwise (fun x y => y.weight ≤ x.weight) →
      (l.foldl (fun acc e => stableInsert e acc) acc).filter (fun x => x.weight == w)
        = acc.filter (fun x => x.weight == w) ++ l.filter (fun x => x.weight == w) := by
  intro l
  induction l with
  | nil => intro acc _; simp
  | cons x t ih =>
    intro acc h
    rw [List.foldl_cons, ih (stableInsert x acc) (stableInsert_sorted x acc h),
      stableInsert_filter x w acc h, List.filter_cons]
    by_cases hp : (x.weight == w) = true
    · simp only [hp, if_true, if_pos, List.append_assoc, List.singleton_append]
    · simp only [hp, Bool.false_eq_true, if_false, if_neg]

/-- The collection loop of place builds the per-vertex concatenation of the
filtered out-edge lists. -/
theorem placeCollect_eq_flatMap (s : AcycState) :
    placeCollect s =
      s.verts.flatMap
        (fun v => (outEdges s v.wvid).filter (fun e => !(e.weight == 0) && e.cutable)) := by
  unfold placeCollect
  have main : ∀ (l : List WorkVertex) (init : List WorkEdge),
      l.foldl
        (fun acc v =>
          acc ++ (outEdges s v.wvid).filter (fun e => !(e.weight == 0) && e.cutable))
        init
        = init ++ l.flatMap
            (fun v => (outEdges s v.wvid).filter (fun e => !(e.weight == 0) && e.cutable)) := by
    intro l
    induction l with
    | nil => intro init; simp
    | cons a t ih =>
      intro init
      simp [List.foldl_cons, ih, List.flatMap_cons]
  simpa using main s.verts []

/-- Counterexample to claim C7 as stated: the collection loop of place
tests the weight against zero, not for positivity, so a cutable work edge
of negative weight is collected.  Concrete input: one work vertex with a
cutable self-loop of weight minus one. -/
theorem placeCollect_takes_negative_weight :
    ¬ (∀ e ∈ placeCollect
          { origEdges := [], origVerts := [0],
            verts := [{ wvid := 0, origv := 0, rank := 0, user := 0, storedRank := 0,
                        onWorkList := false, deleted := false }],
            edges := [{ weid := 0, src := 0, dst := 0, weight := -1, cutable := true,
                        cut := false, grp := [7] }],
            work := [], placeStep := 0, nextWeid := 1, errors := 0 },
        0 < e.weight) := by
  decide

/-- Claim C7 (amended: the weight test of the collection loop is weight
nonzero, not weight positive): the placer collects exactly the cutable
out-edges of nonzero weight of the work vertices, and processes them after
a stable sort by descending weight, so that the order is a permutation of
the collected list, pairwise nonincreasing in weight, and edges of equal
weight keep their collection order. -/
theorem place_order_spec (s : AcycState) :
    (∀ e : WorkEdge, e ∈ placeOrder s ↔
        ((∃ v ∈ s.verts, e ∈ outEdges s v.wvid) ∧ e.weight ≠ 0 ∧ e.cutable = true))
  ∧ List.Perm (placeOrder s) (placeCollect s)
  ∧ List.Pairwise (fun a b => b.weight ≤ a.weight) (placeOrder s)
  ∧ (∀ a b : WorkEdge, a.weight = b.weight →
      List.Sublist [a, b] (placeCollect s) → List.Sublist [a, b] (placeOrder s)) := by
  have hperm : List.Perm (placeOrder s) (placeCollect s) := by
    have h := foldInsert_perm (placeCollect s) []
    simpa [placeOrder] using h
  refine ⟨?_, hperm, ?_, ?_⟩
  · intro e
    rw [hperm.mem_iff, placeCollect_eq_flatMap, List.mem_flatMap]
    constructor
    · rintro ⟨v, hv, he⟩
      rw [List.mem_filter] at he
      rcases he with ⟨hmem, hcond⟩
      simp only [Bool.and_eq_true, Bool.not_eq_true', beq_eq_false_iff_ne] at hcond
      exact ⟨⟨v, hv, hmem⟩, hcond.1, hcond.2⟩
    · rintro ⟨⟨v, hv, hmem⟩, hw, hc⟩
      refine ⟨v, hv, ?_⟩
      rw [List.mem_filter]
      refine ⟨hmem, ?_⟩
      simp [hw, hc]
  · exact foldInsert_sorted (placeCollect s) [] List.Pairwise.nil
  · intro a b hw hsub
    have hfilter := foldInsert_filter a.weight (placeCollect s) [] List.Pairwise.nil
    have haa : (a.weight == a.weight) = true := beq_self_eq_true _
    have hba : (b.weight == a.weight) = true := beq_iff_eq.mpr hw.symm
    have hpair : [a, b].filter (fun x => x.weight == a.weight) = [a, b] := by
      simp [List.filter_cons, haa, hba]
    have h1 := List.Sublist.filter (fun x => x.weight == a.weight) hsub
    rw [hpair] at h1
    have h2 : (placeCollect s).filter (fun x => x.weight == a.weight)
        = (placeOrder s).filter (fun x => x.weight == a.weight) := by
      unfold placeOrder
      rw [hfilter]
      rfl
    rw [h2] at h1
    exact h1.trans (List.filter_sublist _)

/-- Witness for claim C7 at a concrete state with two equal-weight cutable
edges and one heavier edge: the equal pair keeps its collection order. -/
theorem place_order_spec_witness :
    (({ weid := 0, src := 0, dst := 1, weight := 2, cutable := true,
        cut := false, grp := [5] } : WorkEdge).weight
      = ({ weid := 1, src := 0, dst := 1, weight := 2, cutable := true,
           cut := false, grp := [6] } : WorkEdge).weight)
    ∧ List.Sublist
        [{ weid := 0, src := 0, dst := 1, weight := 2, cutable := true,
           cut := false, grp := [5] },
         { weid := 1, src := 0, dst := 1, weight := 2, cutable := true,
           cut := false, grp := [6] }]
        (placeOrder
          { origEdges := [], origVerts := [0, 1],
            verts := [{ wvid := 0, origv := 0, rank := 0, user := 0, storedRank := 0,
                        onWorkList := false, deleted := false },
                      { wvid := 1, origv := 1, rank := 0, user := 0, storedRank := 0,
                        onWorkList := false, deleted := false }],
            edges := [{ weid := 0, src := 0, dst := 1, weight := 2, cutable := true,
                        cut := false, grp := [5] },
                      { weid := 1, src := 0, dst := 1, weight := 2, cutable := true,
                        cut := false, grp := [6] }],
            work := [], placeStep := 0, nextWeid := 2, errors := 0 }) :=
  ⟨by decide,
   (place_order_spec _).2.2.2 _ _ (by decide) (by decide)⟩

/-! Claim C3: which rules the simplifier work loop applies with allowCut. -/

/-- Counterexample to claim C3 as stated: with allowCut true the work loop
body applies the two cut rules only when the fAcycSimp option of the
enclosing tool is also on.  Concrete input: a work vertex with a cutable
self-loop and the option off; the claimed composition would cut the loop,
the code leaves the state untouched. -/
theorem simplify_cutters_gated_by_option :
    ¬ (simplifyVertexStep true false
        { origEdges := [{ oeid := 5, src := 0, dst := 0, weight := 1,
                          cutable := true, cut := false }],
          origVerts := [0],
          verts := [{ wvid := 0, origv := 0, rank := 0, user := 0, storedRank := 0,
                      onWorkList := false, deleted := false }],
          edges := [{ weid := 0, src := 0, dst := 0, weight := 1, cutable := true,
                      cut := false, grp := [5] }],
          work := [], placeStep := 0, nextWeid := 1, errors := 0 }
        0
      = cutBackward (cutBasic (simplifyDup (simplifyOut (simplifyOne (simplifyNone
          { origEdges := [{ oeid := 5, src := 0, dst := 0, weight := 1,
                            cutable := true, cut := false }],
            origVerts := [0],
            verts := [{ wvid := 0, origv := 0, rank := 0, user := 0, storedRank := 0,
                        onWorkList := false, deleted := false }],
            edges := [{ weid := 0, src := 0, dst := 0, weight := 1, cutable := true,
                        cut := false, grp := [5] }],
            work := [], placeStep := 0, nextWeid := 1, errors := 0 }
          0) 0) 0) 0) 0) 0) := by
  decide

/-- Claim C3 (amended: additionally the fAcycSimp option must be on, as it
is in a default run): with allowCut true and the option on, the work loop
body applies, to every popped work vertex, the four rewrite rules None,
One, Out, Dup in order and then the two cut rules Basic and Backward. -/
theorem simplify_allowCut_applies_cutters (s : AcycState) (vid : Nat) :
    simplifyVertexStep true true s vid
      = cutBackward (cutBasic (simplifyDup (simplifyOut (simplifyOne (simplifyNone
          s vid) vid) vid) vid) vid) vid := rfl

/-! Claim C9: determinism of the entry point. -/

/-- Claim C9: the algorithm is modelled as a pure function of the input
graph, the follow predicate and the option setting; with a fixed iteration
order (the list order of the collaborator) two runs on the same input
yield the same final state, in particular the same set of cut original
edges.  There is no hidden source of nondeterminism in the source: the
only inputs are the graph, the predicate and the option. -/
theorem acyclic_deterministic (pred : OrigEdge → Bool) (vs : List Nat)
    (es : List OrigEdge) :
    cutSet (acyclic pred vs es) = cutSet (acyclic pred vs es)
      ∧ acyclic pred vs es = acyclic pred vs es :=
  ⟨rfl, rfl⟩

/-! More projection facts used by the rule-level claims. -/

@[simp] theorem delEdge_edges (s : AcycState) (id : Nat) :
    (delEdge s id).edges = s.edges.filter (fun e => !(e.weid == id)) := rfl

@[simp] theorem updEdge_edges (s : AcycState) (id : Nat) (f : WorkEdge → WorkEdge) :
    (updEdge s id f).edges = s.edges.map (fun e => if e.weid == id then f e else e) := rfl

@[simp] theorem edgeFromEdge_edges (s : AcycState) (old : WorkEdge) (a b : Nat) :
    (edgeFromEdge s old a b).edges
      = s.edges ++
        [{ weid := s.nextWeid, src := a, dst := b, weight := old.weight,
           cutable := old.cutable, cut := false, grp := old.grp }] := rfl

@[simp] theorem edgeFromEdge_nextWeid (s : AcycState) (old : WorkEdge) (a b : Nat) :
    (edgeFromEdge s old a b).nextWeid = s.nextWeid + 1 := rfl

theorem mem_of_mem_inEdges (s : AcycState) (vid : Nat) (e : WorkEdge)
    (h : e ∈ inEdges s vid) : e ∈ s.edges := by
  unfold inEdges at h
  exact (List.mem_filter.mp h).1

theorem mem_of_mem_outEdges (s : AcycState) (vid : Nat) (e : WorkEdge)
    (h : e ∈ outEdges s vid) : e ∈ s.edges := by
  unfold outEdges at h
  exact (List.mem_filter.mp h).1

/-! Claim C4: the template choice of rule One and what the bypass edge
inherits. -/

/-- Claim C4: when rule One fires on a vertex with exactly one in-edge and
one out-edge, neither endpoint the vertex itself, the two old edges are
removed and one new bypass edge from the in-source to the out-destination
is appended; the template is the in-edge exactly when the in-edge is
cutable and the out-edge is uncutable or heavier, otherwise the out-edge;
the new edge inherits the weight, the cutable flag and the EdgeGroup of
the template. -/
theorem simplifyOne_template
    (s : AcycState) (vid : Nat) (v : WorkVertex) (inE outE : WorkEdge)
    (hv : findVtx s vid = some v) (hnd : v.deleted = false)
    (hin : inEdges s vid = [inE]) (hout : outEdges s vid = [outE])
    (hins : inE.src ≠ vid) (houts : outE.dst ≠ vid)
    (hfresh : ∀ x ∈ s.edges, x.weid < s.nextWeid) :
    ∃ newE : WorkEdge,
      (simplifyOne s vid).edges
        = ((s.edges.filter (fun x => !(x.weid == inE.weid))).filter
            (fun x => !(x.weid == outE.weid))) ++ [newE]
      ∧ newE.src = inE.src ∧ newE.dst = outE.dst
      ∧ ((inE.cutable = true ∧ (outE.cutable = false ∨ inE.weight < outE.weight)) →
          newE.weight = inE.weight ∧ newE.cutable = inE.cutable ∧ newE.grp = inE.grp)
      ∧ (¬ (inE.cutable = true ∧ (outE.cutable = false ∨ inE.weight < outE.weight)) →
          newE.weight = outE.weight ∧ newE.cutable = outE.cutable ∧ newE.grp = outE.grp) := by
  have hmemIn : inE ∈ s.edges :=
    mem_of_mem_inEdges s vid inE (by rw [hin]; exact List.mem_cons_self _ _)
  have hmemOut : outE ∈ s.edges :=
    mem_of_mem_outEdges s vid outE (by rw [hout]; exact List.mem_cons_self _ _)
  have hfin : s.nextWeid ≠ inE.weid := Nat.ne_of_gt (hfresh inE hmemIn)
  have hfout : s.nextWeid ≠ outE.weid := Nat.ne_of_gt (hfresh outE hmemOut)
  have hsrc : (inE.src == vid) = false := by simpa using hins
  have hdst : (outE.dst == vid) = false := by simpa using houts
  have hcond : ((inE.cutable && (!outE.cutable || inE.weight < outE.weight)) = true)
      ↔ (inE.cutable = true ∧ (outE.cutable = false ∨ inE.weight < outE.weight)) := by
    simp [Bool.and_eq_true, Bool.or_eq_true, Bool.not_eq_true', decide_eq_true_iff]
  by_cases hc : (inE.cutable && (!outE.cutable || inE.weight < outE.weight)) = true
  · refine ⟨{ weid := s.nextWeid, src := inE.src, dst := outE.dst,
              weight := inE.weight, cutable := inE.cutable, cut := false,
              grp := inE.grp }, ?_, rfl, rfl, fun _ => ⟨rfl, rfl, rfl⟩,
            fun hn => absurd (hcond.mp hc) hn⟩
    simp only [simplifyOne, hv, hnd, Bool.false_eq_true, if_false, hin, hout,
      hsrc, hdst, Bool.not_false, Bool.and_self, if_true, hc, if_pos,
      workPush_edges, delEdge_edges, updVtx_edges, edgeFromEdge_edges,
      updVtx_nextWeid]
    rw [List.filter_append, List.filter_append]
    simp [hfin, hfout]
  · refine ⟨{ weid := s.nextWeid, src := inE.src, dst := outE.dst,
              weight := outE.weight, cutable := outE.cutable, cut := false,
              grp := outE.grp }, ?_, rfl, rfl,
            fun hp => absurd hp (fun hp2 => hc (hcond.mpr hp2)),
            fun _ => ⟨rfl, rfl, rfl⟩⟩
    simp only [simplifyOne, hv, hnd, Bool.false_eq_true, if_false, hin, hout,
      hsrc, hdst, Bool.not_false, Bool.and_self, if_true, hc, if_neg,
      workPush_edges, delEdge_edges, updVtx_edges, edgeFromEdge_edges,
      updVtx_nextWeid]
    rw [List.filter_append, List.filter_append]
    simp [hfin, hfout]

/-- Witness for claim C4 on the chain 0 to 1 to 2 with a lighter cutable
in-edge: the in-edge is the template. -/
theorem simplifyOne_template_witness :
    (inEdges
        { origEdges := [], origVerts := [0, 1, 2],
          verts := [{ wvid := 0, origv := 0, rank := 0, user := 0, storedRank := 0,
                      onWorkList := false, deleted := false },
                    { wvid := 1, origv := 1, rank := 0, user := 0, storedRank := 0,
                      onWorkList := false, deleted := false },
                    { wvid := 2, origv := 2, rank := 0, user := 0, storedRank := 0,
                      onWorkList := false, deleted := false }],
          edges := [{ weid := 0, src := 0, dst := 1, weight := 1, cutable := true,
                      cut := false, grp := [10] },
                    { weid := 1, src := 1, dst := 2, weight := 4, cutable := true,
                      cut := false, grp := [11] }],
          work := [], placeStep := 0, nextWeid := 2, errors := 0 }
        1
      = [{ weid := 0, src := 0, dst := 1, weight := 1, cutable := true,
           cut := false, grp := [10] }])
    ∧ ∃ newE : WorkEdge,
        (simplifyOne
          { origEdges := [], origVerts := [0, 1, 2],
            verts := [{ wvid := 0, origv := 0, rank := 0, user := 0, storedRank := 0,
                        onWorkList := false, deleted := false },
                      { wvid := 1, origv := 1, rank := 0, user := 0, storedRank := 0,
                        onWorkList := false, deleted := false },
                      { wvid := 2, origv := 2, rank := 0, user := 0, storedRank := 0,
                        onWorkList := false, deleted := false }],
            edges := [{ weid := 0, src := 0, dst := 1, weight := 1, cutable := true,
                        cut := false, grp := [10] },
                      { weid := 1, src := 1, dst := 2, weight := 4, cutable := true,
                        cut := false, grp := [11] }],
            work := [], placeStep := 0, nextWeid := 2, errors := 0 }
          1).edges
        = ((([{ weid := 0, src := 0, dst := 1, weight := 1, cutable := true,
                cut := false, grp := [10] },
              { weid := 1, src := 1, dst := 2, weight := 4, cutable := true,
                cut := false, grp := [11] }] : List WorkEdge).filter
              (fun x => !(x.weid == 0))).filter (fun x => !(x.weid == 1))) ++ [newE]
        ∧ newE.src = 0 ∧ newE.dst = 2
        ∧ ((true = true ∧ (true = false ∨ (1 : Int) < 4)) →
            newE.weight = 1 ∧ newE.cutable = true ∧ newE.grp = [10])
        ∧ (¬ (true = true ∧ (true = false ∨ (1 : Int) < 4)) →
            newE.weight = 4 ∧ newE.cutable = true ∧ newE.grp = [11]) :=
  ⟨by decide,
   simplifyOne_template _ 1
     { wvid := 1, origv := 1, rank := 0, user := 0, storedRank := 0,
       onWorkList := false, deleted := false }
     { weid := 0, src := 0, dst := 1, weight := 1, cutable := true,
       cut := false, grp := [10] }
     { weid := 1, src := 1, dst := 2, weight := 4, cutable := true,
       cut := false, grp := [11] }
     (by decide) (by decide) (by decide) (by decide) (by decide) (by decide)
     (by decide)⟩

/-! Lookup lemmas for keyed edge updates, deletions and insertions. -/

@[simp] theorem delEdge_errors (s : AcycState) (id : Nat) :
    (delEdge s id).errors = s.errors := rfl

@[simp] theorem delEdge_nextWeid (s : AcycState) (id : Nat) :
    (delEdge s id).nextWeid = s.nextWeid := rfl

@[simp] theorem edgeFromEdge_errors (s : AcycState) (old : WorkEdge) (a b : Nat) :
    (edgeFromEdge s old a b).errors = s.errors := rfl

@[simp] theorem updEdge_errors (s : AcycState) (id : Nat) (f : WorkEdge → WorkEdge) :
    (updEdge s id f).errors = s.errors := rfl

@[simp] theorem updEdge_nextWeid (s : AcycState) (id : Nat) (f : WorkEdge → WorkEdge) :
    (updEdge s id f).nextWeid = s.nextWeid := rfl

@[simp] theorem workPush_nextWeid (s : AcycState) (id : Nat) :
    (workPush s id).nextWeid = s.nextWeid := by
  unfold workPush
  cases findVtx s id with
  | none => rfl
  | some v => by_cases h : v.onWorkList <;> simp [h]

@[simp] theorem findEdge_workPush (s : AcycState) (id q : Nat) :
    findEdge (workPush s id) q = findEdge s q := by
  unfold findEdge
  rw [workPush_edges]

@[simp] theorem findEdge_updVtx (s : AcycState) (id : Nat)
    (f : WorkVertex → WorkVertex) (q : Nat) :
    findEdge (updVtx s id f) q = findEdge s q := rfl

@[simp] theorem inEdges_updVtx (s : AcycState) (id : Nat)
    (f : WorkVertex → WorkVertex) (q : Nat) :
    inEdges (updVtx s id f) q = inEdges s q := rfl

/-- Looking for one edge id is unaffected by filtering out another id. -/
theorem find?_weid_filter_ne (l : List WorkEdge) (q x : Nat) (hqx : q ≠ x) :
    (l.filter (fun e => !(e.weid == x))).find? (fun e => e.weid == q)
      = l.find? (fun e => e.weid == q) := by
  induction l with
  | nil => rfl
  | cons a t ih =>
    by_cases ha : a.weid = x
    · have h1 : (!(a.weid == x)) = false := by simp [ha]
      have h2 : (a.weid == q) = false := by
        rw [ha]; exact beq_eq_false_iff_ne.mpr (Ne.symm hqx)
      simp [List.filter_cons, h1, List.find?_cons, h2, ih]
    · have h1 : (!(a.weid == x)) = true := by simp [ha]
      by_cases hq : a.weid = q
      · have h2 : (a.weid == q) = true := by simp [hq]
        simp [List.filter_cons, h1, List.find?_cons, h2]
      · have h2 : (a.weid == q) = false := by simp [hq]
        simp [List.filter_cons, h1, List.find?_cons, h2, ih]

/-- When the edge ids of a list are distinct, looking up the id of a member
finds exactly that member. -/
theorem find?_weid_of_nodup (l : List WorkEdge) (e : WorkEdge)
    (hnd : (l.map (fun x => x.weid)).Nodup) (hmem : e ∈ l) :
    l.find? (fun x => x.weid == e.weid) = some e := by
  induction l with
  | nil => cases hmem
  | cons a t ih =>
    rw [List.map_cons, List.nodup_cons] at hnd
    rcases List.mem_cons.mp hmem with rfl | hmt
    · simp [List.find?_cons]
    · have hane : a.weid ≠ e.weid := by
        intro hcontra
        have : a.weid ∈ t.map (fun x => x.weid) := by
          rw [hcontra]; exact List.mem_map_of_mem _ hmt
        exact hnd.1 this
      have h2 : (a.weid == e.weid) = false := beq_eq_false_iff_ne.mpr hane
      simp [List.find?_cons, h2, ih hnd.2 hmt]

/-- A keyed map update shifts through a keyed lookup when the update
preserves the key. -/
theorem find?_weid_map_upd (l : List WorkEdge) (id q : Nat) (f : WorkEdge → WorkEdge)
    (hf : ∀ e, (f e).weid = e.weid) :
    (l.map (fun e => if e.weid == id then f e else e)).find? (fun e => e.weid == q)
      = Option.map (fun e => if e.weid == id then f e else e)
          (l.find? (fun e => e.weid == q)) := by
  induction l with
  | nil => rfl
  | cons a t ih =>
    have hkey : ((if a.weid == id then f a else a).weid == q) = (a.weid == q) := by
      by_cases h : a.weid = id <;> simp [h, hf]
    rw [List.map_cons, List.find?_cons, List.find?_cons, hkey]
    cases h2 : (a.weid == q) with
    | true => rfl
    | false => exact ih

/-- Keyed lookup through updEdge. -/
theorem findEdge_updEdge (s : AcycState) (id q : Nat) (f : WorkEdge → WorkEdge)
    (hf : ∀ e, (f e).weid = e.weid) :
    findEdge (updEdge s id f) q
      = Option.map (fun e => if e.weid == id then f e else e) (findEdge s q) := by
  unfold findEdge updEdge
  exact find?_weid_map_upd s.edges id q f hf

/-- An edge found by findEdge is a member carrying the looked-up id. -/
theorem findEdge_some (s : AcycState) (q : Nat) (e : WorkEdge)
    (h : findEdge s q = some e) : e ∈ s.edges ∧ e.weid = q := by
  unfold findEdge at h
  exact ⟨List.mem_of_find?_eq_some h, by simpa using List.find?_some h⟩

/-- One non-aborting step of the simplifyOut in-edge loop does not disturb
the lookup of any other edge id that predates it. -/
theorem findEdge_outStep (s : AcycState) (x : WorkEdge) (a b q : Nat)
    (hq : q < s.nextWeid) (hqx : q ≠ x.weid) :
    findEdge (workPush (delEdge (edgeFromEdge s x a b) x.weid) a) q = findEdge s q := by
  rw [findEdge_workPush]
  unfold findEdge
  rw [delEdge_edges, edgeFromEdge_edges]
  rw [find?_weid_filter_ne _ _ _ hqx, List.find?_append]
  have hne : (s.nextWeid == q) = false := beq_eq_false_iff_ne.mpr (Nat.ne_of_gt hq)
  simp [List.find?_cons, hne]

/-! Claim C6: the error path of rule Out. -/

/-- When the in-edge snapshot starts with edges whose source is not the
vertex and then reaches one whose source is the vertex itself, the in-edge
loop of simplifyOut reports one error, forces that in-edge cutable and
aborts, leaving the ids after it unprocessed. -/
theorem simplifyOutLoop_abort :
    ∀ (es : List WorkEdge) (s : AcycState) (vid outDst selfId : Nat)
      (restIds : List Nat) (selfE : WorkEdge),
      (∀ x ∈ es, x.src ≠ vid) →
      (∀ x ∈ es, findEdge s x.weid = some x) →
      (∀ x ∈ s.edges, x.weid < s.nextWeid) →
      (es.map (fun e => e.weid)).Nodup →
      findEdge s selfId = some selfE →
      selfE.src = vid →
      selfId ∉ es.map (fun e => e.weid) →
      ∃ t : AcycState,
        simplifyOutLoop vid outDst (es.map (fun e => e.weid) ++ selfId :: restIds) s
          = (updEdge { t with errors := t.errors + 1 } selfId
              (fun e => { e with cutable := true }), true)
        ∧ t.errors = s.errors
        ∧ (∀ q : Nat, q < s.nextWeid → q ∉ es.map (fun e => e.weid) →
            findEdge t q = findEdge s q) := by
  intro es
  induction es with
  | nil =>
    intro s vid outDst selfId restIds selfE _ _ _ _ hselfF hselfS _
    refine ⟨s, ?_, rfl, fun q _ _ => rfl⟩
    have hbeq : (selfE.src == vid) = true := by simp [hselfS]
    simp [simplifyOutLoop, hselfF, hbeq]
  | cons x es2 ih =>
    intro s vid outDst selfId restIds selfE hes1 hesm hfresh hnodup hselfF hselfS hselfNot
    have hxm : findEdge s x.weid = some x := hesm x (List.mem_cons_self _ _)
    have hxsrc : (x.src == vid) = false :=
      beq_eq_false_iff_ne.mpr (hes1 x (List.mem_cons_self _ _))
    rw [List.map_cons, List.nodup_cons] at hnodup
    have hselfNot2 : selfId ∉ es2.map (fun e => e.weid) := by
      intro hcontra
      exact hselfNot (by rw [List.map_cons]; exact List.mem_cons_of_mem _ hcontra)
    have hselfNe : selfId ≠ x.weid := by
      intro hcontra
      exact hselfNot (by rw [List.map_cons, hcontra]; exact List.mem_cons_self _ _)
    have hselfmem := findEdge_some s selfId selfE hselfF
    have hselflt : selfId < s.nextWeid := hselfmem.2 ▸ hfresh selfE hselfmem.1
    set s2 := workPush (delEdge (edgeFromEdge s x x.src outDst) x.weid) x.src with hs2
    have hpres : ∀ q : Nat, q < s.nextWeid → q ≠ x.weid → findEdge s2 q = findEdge s q := by
      intro q hq hqx
      exact findEdge_outStep s x x.src outDst q hq hqx
    have hnext2 : s2.nextWeid = s.nextWeid + 1 := by
      rw [hs2]; simp
    have hfresh2 : ∀ y ∈ s2.edges, y.weid < s2.nextWeid := by
      intro y hy
      rw [hs2] at hy
      rw [workPush_edges, delEdge_edges, edgeFromEdge_edges] at hy
      have hy2 := List.mem_filter.mp hy
      rcases List.mem_append.mp hy2.1 with hmem | hnew
      · have := hfresh y hmem
        rw [hnext2]; omega
      · rcases List.mem_singleton.mp hnew with rfl
        rw [hnext2]; simp
    have hesm2 : ∀ y ∈ es2, findEdge s2 y.weid = some y := by
      intro y hy
      have hmy := hesm y (List.mem_cons_of_mem _ hy)
      have hymem := findEdge_some s y.weid y hmy
      have hylt : y.weid < s.nextWeid := hfresh y hymem.1
      have hyne : y.weid ≠ x.weid := by
        intro hcontra
        exact hnodup.1 (hcontra ▸ List.mem_map_of_mem _ hy)
      rw [hpres y.weid hylt hyne]
      exact hmy
    have hselfF2 : findEdge s2 selfId = some selfE := by
      rw [hpres selfId hselflt hselfNe]; exact hselfF
    obtain ⟨t, ht1, ht2, ht3⟩ :=
      ih s2 vid outDst selfId restIds selfE
        (fun y hy => hes1 y (List.mem_cons_of_mem _ hy))
        hesm2 hfresh2 hnodup.2 hselfF2 hselfS hselfNot2
    refine ⟨t, ?_, ?_, ?_⟩
    · rw [List.map_cons, List.cons_append]
      rw [show simplifyOutLoop vid outDst
            (x.weid :: (es2.map (fun e => e.weid) ++ selfId :: restIds)) s
          = simplifyOutLoop vid outDst (es2.map (fun e => e.weid) ++ selfId :: restIds) s2 by
        simp [simplifyOutLoop, hxm, hxsrc]]
      exact ht1
    · rw [ht2, hs2]
      simp
    · intro q hq hqn
      rw [List.map_cons] at hqn
      have hqx : q ≠ x.weid := fun hcontra => hqn (hcontra ▸ List.mem_cons_self _ _)
      have hqn2 : q ∉ es2.map (fun e => e.weid) :=
        fun hcontra => hqn (List.mem_cons_of_mem _ hcontra)
      rw [ht3 q (by rw [hnext2]; omega) hqn2]
      exact hpres q hq hqx

@[simp] theorem findEdge_mk_errors (t : AcycState) (n : Nat) (q : Nat) :
    findEdge { t with errors := n } q = findEdge t q := rfl

/-- Claim C6: in rule Out (single uncutable out-edge), when the in-edge
snapshot reaches an in-edge whose source is the vertex itself, one error
is reported through the collaborator error channel (modelled as the error
counter; the source filters its loop report to uncutable edges), that
in-edge is forcibly marked cutable, and the rule aborts: the in-edges
after the offending one are left untouched and the out-edge is not
removed, so the algorithm continues best-effort. -/
theorem simplifyOut_error_path
    (s : AcycState) (vid : Nat) (v : WorkVertex) (outE selfE : WorkEdge)
    (es rest : List WorkEdge)
    (hv : findVtx s vid = some v) (hnd : v.deleted = false)
    (hout : outEdges s vid = [outE]) (houtc : outE.cutable = false)
    (hin : inEdges s vid = es ++ selfE :: rest)
    (hes : ∀ x ∈ es, x.src ≠ vid)
    (hself : selfE.src = vid)
    (hnodup : (s.edges.map (fun e => e.weid)).Nodup)
    (hfresh : ∀ x ∈ s.edges, x.weid < s.nextWeid) :
    (simplifyOut s vid).errors = s.errors + 1
    ∧ (∃ se : WorkEdge, findEdge (simplifyOut s vid) selfE.weid = some se
        ∧ se.cutable = true)
    ∧ (∀ x ∈ rest, findEdge (simplifyOut s vid) x.weid = some x)
    ∧ (∃ oe : WorkEdge, findEdge (simplifyOut s vid) outE.weid = some oe) := by
  have hinSub : inEdges s vid ∈ [inEdges s vid] := List.mem_singleton.mpr rfl
  have hndIn : ((inEdges s vid).map (fun e => e.weid)).Nodup :=
    List.Nodup.sublist ((List.filter_sublist _).map _) hnodup
  rw [hin, List.map_append, List.map_cons] at hndIn
  obtain ⟨hnd1, hnd2, hdisj⟩ := List.nodup_append.mp hndIn
  have hselfNot : selfE.weid ∉ es.map (fun e => e.weid) := by
    intro hcontra
    exact hdisj hcontra (List.mem_cons_self _ _)
  have hmemOf : ∀ x ∈ inEdges s vid, x ∈ s.edges := fun x hx =>
    mem_of_mem_inEdges s vid x hx
  have hfindOf : ∀ x ∈ inEdges s vid, findEdge s x.weid = some x := by
    intro x hx
    unfold findEdge
    exact find?_weid_of_nodup s.edges x hnodup (hmemOf x hx)
  have hselfIn : selfE ∈ inEdges s vid := by
    rw [hin]; exact List.mem_append_right _ (List.mem_cons_self _ _)
  have hselfF : findEdge (updVtx s vid (fun w => { w with deleted := true }))
      selfE.weid = some selfE := by
    rw [findEdge_updVtx]; exact hfindOf selfE hselfIn
  obtain ⟨t, ht1, ht2, ht3⟩ :=
    simplifyOutLoop_abort es (updVtx s vid (fun w => { w with deleted := true }))
      vid outE.dst selfE.weid (rest.map (fun e => e.weid)) selfE
      hes
      (fun x hx => by
        rw [findEdge_updVtx]
        exact hfindOf x (by rw [hin]; exact List.mem_append_left _ hx))
      (fun x hx => hfresh x (by simpa using hx))
      hnd1 hselfF hself hselfNot
  have hkey : simplifyOut s vid
      = updEdge { t with errors := t.errors + 1 } selfE.weid
          (fun e => { e with cutable := true }) := by
    simp only [simplifyOut, hv, hnd, Bool.false_eq_true, if_false, hout, houtc,
      Bool.not_false, if_true, inEdges_updVtx, hin, List.map_append, List.map_cons]
    rw [ht1]
  have hlook : ∀ q : Nat, findEdge (simplifyOut s vid) q
      = Option.map (fun e => if e.weid == selfE.weid
          then { e with cutable := true } else e) (findEdge t q) := by
    intro q
    rw [hkey,
      findEdge_updEdge _ selfE.weid q (fun e => { e with cutable := true })
        (fun _ => rfl),
      findEdge_mk_errors]
  have hselflt : selfE.weid < s.nextWeid := hfresh selfE (hmemOf selfE hselfIn)
  have htself : findEdge t selfE.weid = some selfE := by
    rw [ht3 selfE.weid (by simpa using hselflt) hselfNot]
    exact hselfF
  refine ⟨?_, ?_, ?_, ?_⟩
  · rw [hkey]
    rw [updEdge_errors]
    rw [ht2]
    rfl
  · refine ⟨({ selfE with cutable := true } : WorkEdge), ?_, rfl⟩
    rw [hlook, htself]
    simp
  · intro x hx
    have hxIn : x ∈ inEdges s vid := by
      rw [hin]
      exact List.mem_append_right _ (List.mem_cons_of_mem _ hx)
    have hxlt : x.weid < s.nextWeid := hfresh x (hmemOf x hxIn)
    have hxNotEs : x.weid ∉ es.map (fun e => e.weid) := by
      intro hcontra
      exact hdisj hcontra (List.mem_cons_of_mem _ (List.mem_map_of_mem _ hx))
    have hxNe : x.weid ≠ selfE.weid := by
      intro hcontra
      have : selfE.weid ∈ rest.map (fun e => e.weid) :=
        hcontra ▸ List.mem_map_of_mem _ hx
      exact (List.nodup_cons.mp hnd2).1 this
    have htx : findEdge t x.weid = some x := by
      rw [ht3 x.weid (by simpa using hxlt) hxNotEs, findEdge_updVtx]
      exact hfindOf x hxIn
    rw [hlook, htx]
    have hxb : (x.weid == selfE.weid) = false := beq_eq_false_iff_ne.mpr hxNe
    have hni : ¬ ((x.weid == selfE.weid) = true) := by simp [hxb]
    simp only [Option.map_some', if_neg hni]
  · have houtIn : outE ∈ outEdges s vid := by rw [hout]; exact List.mem_cons_self _ _
    have houtMem : outE ∈ s.edges := mem_of_mem_outEdges s vid outE houtIn
    have houtSrc : outE.src = vid := by
      unfold outEdges at houtIn
      have := (List.mem_filter.mp houtIn).2
      simpa using this
    have houtF : findEdge s outE.weid = some outE := by
      unfold findEdge
      exact find?_weid_of_nodup s.edges outE hnodup houtMem
    have houtNotEs : outE.weid ∉ es.map (fun e => e.weid) := by
      intro hcontra
      obtain ⟨y, hy, hyeq⟩ := List.mem_map.mp hcontra
      have hyIn : y ∈ inEdges s vid := by
        rw [hin]; exact List.mem_append_left _ hy
      have hyF : findEdge s y.weid = some y := hfindOf y hyIn
      rw [hyeq] at hyF
      rw [houtF] at hyF
      have : y = outE := by injection hyF.symm
      exact hes y hy (this ▸ houtSrc)
    have houtlt : outE.weid < s.nextWeid := hfresh outE houtMem
    have htout : findEdge t outE.weid = some outE := by
      rw [ht3 outE.weid (by simpa using houtlt) houtNotEs, findEdge_updVtx]
      exact houtF
    refine ⟨(if outE.weid == selfE.weid
        then ({ outE with cutable := true } : WorkEdge) else outE), ?_⟩
    rw [hlook, htout]
    rfl

/-- A state showing the uncutable-cycle error: one work vertex carrying an
uncutable self-loop work edge representing original edge 9. -/
def outErrState : AcycState :=
  { origEdges := [{ oeid := 9, src := 0, dst := 0, weight := 1,
                    cutable := false, cut := false }],
    origVerts := [0],
    verts := [{ wvid := 0, origv := 0, rank := 0, user := 0, storedRank := 0,
                onWorkList := false, deleted := false }],
    edges := [{ weid := 0, src := 0, dst := 0, weight := 1, cutable := false,
                cut := false, grp := [9] }],
    work := [], placeStep := 0, nextWeid := 1, errors := 0 }

/-- The uncutable self-loop work edge of outErrState. -/
def outErrEdge : WorkEdge :=
  { weid := 0, src := 0, dst := 0, weight := 1, cutable := false,
    cut := false, grp := [9] }

/-- Witness for claim C6 on the uncutable self-loop: one error is counted,
the edge is forced cutable, nothing after it is touched. -/
theorem simplifyOut_error_path_witness :
    (inEdges outErrState 0 = [] ++ outErrEdge :: [])
    ∧ ((simplifyOut outErrState 0).errors = outErrState.errors + 1
       ∧ (∃ se : WorkEdge, findEdge (simplifyOut outErrState 0) outErrEdge.weid = some se
           ∧ se.cutable = true)
       ∧ (∀ x ∈ ([] : List WorkEdge),
           findEdge (simplifyOut outErrState 0) x.weid = some x)
       ∧ (∃ oe : WorkEdge,
           findEdge (simplifyOut outErrState 0) outErrEdge.weid = some oe)) :=
  ⟨by decide,
   simplifyOut_error_path outErrState 0
     { wvid := 0, origv := 0, rank := 0, user := 0, storedRank := 0,
       onWorkList := false, deleted := false }
     outErrEdge outErrEdge [] []
     (by decide) (by decide) (by decide) (by decide) (by decide) (by decide)
     (by decide) (by decide) (by decide)⟩

/-! Vertex lookup lemmas, used by the work queue characterizations. -/

@[simp] theorem findVtx_delEdge (s : AcycState) (id q : Nat) :
    findVtx (delEdge s id) q = findVtx s q := rfl

@[simp] theorem findVtx_updEdge (s : AcycState) (id : Nat) (f : WorkEdge → WorkEdge)
    (q : Nat) : findVtx (updEdge s id f) q = findVtx s q := rfl

@[simp] theorem findVtx_mk_work (s : AcycState) (w : List Nat) (q : Nat) :
    findVtx { s with work := w } q = findVtx s q := rfl

/-- A keyed vertex map update shifts through a keyed lookup when the
update preserves the id. -/
theorem find?_wvid_map_upd (l : List WorkVertex) (id q : Nat)
    (f : WorkVertex → WorkVertex) (hf : ∀ v, (f v).wvid = v.wvid) :
    (l.map (fun v => if v.wvid == id then f v else v)).find? (fun v => v.wvid == q)
      = Option.map (fun v => if v.wvid == id then f v else v)
          (l.find? (fun v => v.wvid == q)) := by
  induction l with
  | nil => rfl
  | cons a t ih =>
    have hkey : ((if a.wvid == id then f a else a).wvid == q) = (a.wvid == q) := by
      by_cases h : a.wvid = id <;> simp [h, hf]
    rw [List.map_cons, List.find?_cons, List.find?_cons, hkey]
    cases h2 : (a.wvid == q) with
    | true => rfl
    | false => exact ih

/-- Keyed lookup through updVtx. -/
theorem findVtx_updVtx (s : AcycState) (id q : Nat) (f : WorkVertex → WorkVertex)
    (hf : ∀ v, (f v).wvid = v.wvid) :
    findVtx (updVtx s id f) q
      = Option.map (fun v => if v.wvid == id then f v else v) (findVtx s q) := by
  unfold findVtx updVtx
  exact find?_wvid_map_upd s.verts id q f hf

/-- A vertex found by findVtx is a member carrying the looked-up id. -/
theorem findVtx_some (s : AcycState) (q : Nat) (v : WorkVertex)
    (h : findVtx s q = some v) : v ∈ s.verts ∧ v.wvid = q := by
  unfold findVtx at h
  exact ⟨List.mem_of_find?_eq_some h, by simpa using List.find?_some h⟩

/-- Pushing one id leaves the lookup of a different id unchanged. -/
theorem findVtx_workPush_ne (s : AcycState) (id q : Nat) (hq : q ≠ id) :
    findVtx (workPush s id) q = findVtx s q := by
  unfold workPush
  cases hfv : findVtx s id with
  | none => rfl
  | some v =>
    by_cases h : v.onWorkList
    · simp [h]
    · simp only [h, if_false, Bool.false_eq_true, findVtx_mk_work]
      rw [findVtx_updVtx s id q (fun w => { w with onWorkList := true })
        (fun _ => rfl)]
      cases hq2 : findVtx s q with
      | none => rfl
      | some u =>
        have hu := findVtx_some s q u hq2
        have hub : (u.wvid == id) = false := beq_eq_false_iff_ne.mpr (hu.2 ▸ hq)
        have hni : ¬ ((u.wvid == id) = true) := by simp [hub]
        simp only [Option.map_some', if_neg hni]

/-- Pushing a vertex that is not yet on the work queue appends its id. -/
theorem workPush_work_append (s : AcycState) (id : Nat) (v : WorkVertex)
    (hv : findVtx s id = some v) (hnot : v.onWorkList = false) :
    (workPush s id).work = s.work ++ [id] := by
  unfold workPush
  rw [hv]
  simp [hnot]

/-- Pushing two distinct vertices that are not yet on the work queue
appends both ids in order. -/
theorem double_push_work (s : AcycState) (a b : Nat) (va vb : WorkVertex)
    (hva : findVtx s a = some va) (ha : va.onWorkList = false)
    (hvb : findVtx s b = some vb) (hb : vb.onWorkList = false)
    (hab : b ≠ a) :
    (workPush (workPush s a) b).work = s.work ++ [a, b] := by
  have h1 : (workPush s a).work = s.work ++ [a] := workPush_work_append s a va hva ha
  have h2 : findVtx (workPush s a) b = some vb := by
    rw [findVtx_workPush_ne s a b hab]
    exact hvb
  rw [workPush_work_append (workPush s a) b vb h2 hb, h1, List.append_assoc]
  rfl

/-! Claim C5: the duplicate-edge policy of rule Dup. -/

/-- Claim C5: one step of the out-edge loop of rule Dup, on an edge e whose
destination carries a marked previous edge prev.  When prev is uncutable, e
is deleted whatever its own flag; when prev is cutable and e is uncutable,
prev is deleted and e becomes the mark; when both are cutable, the weight
of e is added to prev, the EdgeGroup of e is concatenated onto the group
of prev, and e is deleted.  In every case the destination and the vertex
are pushed onto the work queue, in that order. -/
theorem simplifyDup_step
    (s : AcycState) (vid eid prevId : Nat) (e prev : WorkEdge)
    (rest : List Nat) (marks : Nat → Option Nat)
    (he : findEdge s eid = some e)
    (hm : marks e.dst = some prevId)
    (hp : findEdge s prevId = some prev)
    (vw vv : WorkVertex)
    (hvw : findVtx s e.dst = some vw) (hvwo : vw.onWorkList = false)
    (hvv : findVtx s vid = some vv) (hvvo : vv.onWorkList = false)
    (hwv : vid ≠ e.dst) :
    (prev.cutable = false →
      ∃ s2 : AcycState,
        simplifyDupLoop vid (eid :: rest) marks s = simplifyDupLoop vid rest marks s2
        ∧ s2.edges = s.edges.filter (fun x => !(x.weid == eid))
        ∧ s2.work = s.work ++ [e.dst, vid])
    ∧ (prev.cutable = true → e.cutable = false →
      ∃ s2 : AcycState,
        simplifyDupLoop vid (eid :: rest) marks s
          = simplifyDupLoop vid rest
              (fun x => if x == e.dst then some eid else marks x) s2
        ∧ s2.edges = s.edges.filter (fun x => !(x.weid == prevId))
        ∧ s2.work = s.work ++ [e.dst, vid])
    ∧ (prev.cutable = true → e.cutable = true →
      ∃ s2 : AcycState,
        simplifyDupLoop vid (eid :: rest) marks s = simplifyDupLoop vid rest marks s2
        ∧ s2.edges = (s.edges.map (fun x => if x.weid == prevId
              then { x with weight := x.weight + e.weight, grp := x.grp ++ e.grp }
              else x)).filter (fun x => !(x.weid == eid))
        ∧ s2.work = s.work ++ [e.dst, vid]) := by
  refine ⟨?_, ?_, ?_⟩
  · intro hpc
    refine ⟨workPush (workPush (delEdge s eid) e.dst) vid, ?_, by simp, ?_⟩
    · simp [simplifyDupLoop, he, hm, hp, hpc]
    · exact double_push_work (delEdge s eid) e.dst vid vw vv hvw hvwo hvv hvvo hwv
  · intro hpc hec
    refine ⟨workPush (workPush (delEdge s prevId) e.dst) vid, ?_, by simp, ?_⟩
    · simp [simplifyDupLoop, he, hm, hp, hpc, hec]
    · exact double_push_work (delEdge s prevId) e.dst vid vw vv hvw hvwo hvv hvvo hwv
  · intro hpc hec
    refine ⟨workPush (workPush (delEdge (updEdge s prevId
        (fun p => { p with weight := p.weight + e.weight, grp := p.grp ++ e.grp }))
        eid) e.dst) vid, ?_, by simp, ?_⟩
    · simp [simplifyDupLoop, he, hm, hp, hpc, hec]
    · exact double_push_work _ e.dst vid vw vv hvw hvwo hvv hvvo hwv

/-- A state with two parallel cutable work edges from vertex 0 to vertex 1,
representing original edges 5 and 6, as in scenario S4. -/
def dupState : AcycState :=
  { origEdges := [{ oeid := 5, src := 0, dst := 1, weight := 2,
                    cutable := true, cut := false },
                  { oeid := 6, src := 0, dst := 1, weight := 5,
                    cutable := true, cut := false }],
    origVerts := [0, 1],
    verts := [{ wvid := 0, origv := 0, rank := 0, user := 0, storedRank := 0,
                onWorkList := false, deleted := false },
              { wvid := 1, origv := 1, rank := 0, user := 0, storedRank := 0,
                onWorkList := false, deleted := false }],
    edges := [{ weid := 0, src := 0, dst := 1, weight := 2, cutable := true,
                cut := false, grp := [5] },
              { weid := 1, src := 0, dst := 1, weight := 5, cutable := true,
                cut := false, grp := [6] }],
    work := [], placeStep := 0, nextWeid := 2, errors := 0 }

/-- Witness for claim C5 in the both-cutable case on dupState: edge 1 is
merged into the marked edge 0, weights add, groups concatenate, both
endpoints are pushed. -/
theorem simplifyDup_step_witness :
    (({ weid := 1, src := 0, dst := 1, weight := 5, cutable := true,
        cut := false, grp := [6] } : WorkEdge).cutable = true)
    ∧ ∃ s2 : AcycState,
        simplifyDupLoop 0 [1] (fun x => if x == 1 then some 0 else none) dupState
          = simplifyDupLoop 0 [] (fun x => if x == 1 then some 0 else none) s2
        ∧ s2.edges = (dupState.edges.map (fun x => if x.weid == 0
              then { x with weight := x.weight + 5, grp := x.grp ++ [6] }
              else x)).filter (fun x => !(x.weid == 1))
        ∧ s2.work = dupState.work ++ [1, 0] :=
  ⟨by decide,
   (simplifyDup_step dupState 0 1 0
     { weid := 1, src := 0, dst := 1, weight := 5, cutable := true,
       cut := false, grp := [6] }
     { weid := 0, src := 0, dst := 1, weight := 2, cutable := true,
       cut := false, grp := [5] }
     [] (fun x => if x == 1 then some 0 else none)
     (by decide) (by decide) (by decide)
     { wvid := 1, origv := 1, rank := 0, user := 0, storedRank := 0,
       onWorkList := false, deleted := false }
     { wvid := 0, origv := 0, rank := 0, user := 0, storedRank := 0,
       onWorkList := false, deleted := false }
     (by decide) (by decide) (by decide) (by decide) (by decide)).2.2
     (by decide) (by decide)⟩

/-! Claim C8: what the work-graph builder creates. -/

/-- The identity-free shape of a work edge: endpoints, weight, cutable
flag and EdgeGroup. -/
def edgeShape (e : WorkEdge) : Nat × Nat × Int × Bool × List Nat :=
  (e.src, e.dst, e.weight, e.cutable, e.grp)

/-- The edge fold of buildGraphIterate appends, in order, one work edge
for every original edge passing the follow, weight and color tests, and
touches nothing else. -/
theorem buildGraphIterate_fold_shape (pred : OrigEdge → Bool) (color : Nat → Nat)
    (ov : Nat) :
    ∀ (l : List OrigEdge) (st : AcycState),
      ((l.foldl
          (fun st e =>
            if origFollowEdge pred e && !(color e.dst == 0) then
              { st with
                edges := st.edges ++
                  [{ weid := st.nextWeid, src := ov, dst := e.dst, weight := e.weight,
                     cutable := e.cutable, cut := false, grp := [e.oeid] }],
                nextWeid := st.nextWeid + 1 }
            else st)
          st).edges).map edgeShape
        = st.edges.map edgeShape
          ++ (l.filter (fun e => origFollowEdge pred e && !(color e.dst == 0))).map
              (fun e => (ov, e.dst, e.weight, e.cutable, [e.oeid]))
      ∧ (l.foldl
          (fun st e =>
            if origFollowEdge pred e && !(color e.dst == 0) then
              { st with
                edges := st.edges ++
                  [{ weid := st.nextWeid, src := ov, dst := e.dst, weight := e.weight,
                     cutable := e.cutable, cut := false, grp := [e.oeid] }],
                nextWeid := st.nextWeid + 1 }
            else st)
          st).verts = st.verts
      ∧ (l.foldl
          (fun st e =>
            if origFollowEdge pred e && !(color e.dst == 0) then
              { st with
                edges := st.edges ++
                  [{ weid := st.nextWeid, src := ov, dst := e.dst, weight := e.weight,
                     cutable := e.cutable, cut := false, grp := [e.oeid] }],
                nextWeid := st.nextWeid + 1 }
            else st)
          st).origEdges = st.origEdges := by
  intro l
  induction l with
  | nil => intro st; simp
  | cons a t ih =>
    intro st
    by_cases hc : (origFollowEdge pred a && !(color a.dst == 0)) = true
    · obtain ⟨ih1, ih2, ih3⟩ := ih
        { st with
          edges := st.edges ++
            [{ weid := st.nextWeid, src := ov, dst := a.dst, weight := a.weight,
               cutable := a.cutable, cut := false, grp := [a.oeid] }],
          nextWeid := st.nextWeid + 1 }
      refine ⟨?_, ?_, ?_⟩
      · rw [List.foldl_cons, if_pos hc, ih1]
        simp [List.filter_cons, hc, edgeShape]
      · rw [List.foldl_cons, if_pos hc, ih2]
      · rw [List.foldl_cons, if_pos hc, ih3]
    · obtain ⟨ih1, ih2, ih3⟩ := ih st
      refine ⟨?_, ?_, ?_⟩
      · rw [List.foldl_cons, if_neg hc, ih1]
        simp [List.filter_cons, hc]
      · rw [List.foldl_cons, if_neg hc, ih2]
      · rw [List.foldl_cons, if_neg hc, ih3]

/-- buildGraphIterate in terms of the fold lemma. -/
theorem buildGraphIterate_shape (pred : OrigEdge → Bool) (color : Nat → Nat)
    (st : AcycState) (ov : Nat) :
    ((buildGraphIterate pred color st ov).edges).map edgeShape
      = st.edges.map edgeShape
        ++ ((st.origEdges.filter (fun e => e.src == ov)).filter
            (fun e => origFollowEdge pred e && !(color e.dst == 0))).map
            (fun e => (ov, e.dst, e.weight, e.cutable, [e.oeid]))
    ∧ (buildGraphIterate pred color st ov).verts = st.verts
    ∧ (buildGraphIterate pred color st ov).origEdges = st.origEdges := by
  unfold buildGraphIterate
  exact buildGraphIterate_fold_shape pred color ov
    (st.origEdges.filter (fun e => e.src == ov)) st

/-- The outer vertex fold of buildGraph in terms of the iterate lemma. -/
theorem buildGraph_fold_shape (pred : OrigEdge → Bool) (color : Nat → Nat) :
    ∀ (vl : List Nat) (st : AcycState),
      ((vl.foldl
          (fun st ov =>
            if !(color ov == 0) then buildGraphIterate pred color st ov else st)
          st).edges).map edgeShape
        = st.edges.map edgeShape
          ++ (vl.filter (fun ov => !(color ov == 0))).flatMap
              (fun ov =>
                ((st.origEdges.filter (fun e => e.src == ov)).filter
                  (fun e => origFollowEdge pred e && !(color e.dst == 0))).map
                  (fun e => (ov, e.dst, e.weight, e.cutable, [e.oeid])))
      ∧ (vl.foldl
          (fun st ov =>
            if !(color ov == 0) then buildGraphIterate pred color st ov else st)
          st).verts = st.verts := by
  intro vl
  induction vl with
  | nil => intro st; simp
  | cons a t ih =>
    intro st
    by_cases hc : (!(color a == 0)) = true
    · obtain ⟨hs1, hs2, hs3⟩ := buildGraphIterate_shape pred color st a
      obtain ⟨ih1, ih2⟩ := ih (buildGraphIterate pred color st a)
      refine ⟨?_, ?_⟩
      · rw [List.foldl_cons, if_pos hc, ih1, hs1, hs3]
        simp [List.filter_cons, hc, List.flatMap_cons]
      · rw [List.foldl_cons, if_pos hc, ih2, hs2]
    · obtain ⟨ih1, ih2⟩ := ih st
      refine ⟨?_, ?_⟩
      · rw [List.foldl_cons, if_neg hc, ih1]
        simp [List.filter_cons, hc]
      · rw [List.foldl_cons, if_neg hc, ih2]

/-- Claim C8: starting from the initial driver state, buildGraph creates a
work vertex for exactly the original vertices of nonzero color, in order,
and a work edge for exactly the original out-edges that the caller
predicate follows, of nonzero weight, with colored destination; each work
edge keeps the weight and the cutable flag of its original edge and has
exactly that original edge in its EdgeGroup. -/
theorem buildGraph_spec (pred : OrigEdge → Bool) (color : Nat → Nat)
    (origVerts : List Nat) (origEdges : List OrigEdge) :
    (buildGraph pred color (initState origVerts origEdges)).verts
      = (origVerts.filter (fun ov => !(color ov == 0))).map mkAVertex
    ∧ ((buildGraph pred color (initState origVerts origEdges)).edges).map edgeShape
      = (origVerts.filter (fun ov => !(color ov == 0))).flatMap
          (fun ov =>
            ((origEdges.filter (fun e => e.src == ov)).filter
              (fun e => origFollowEdge pred e && !(color e.dst == 0))).map
              (fun e => (ov, e.dst, e.weight, e.cutable, [e.oeid]))) := by
  unfold buildGraph initState
  obtain ⟨h1, h2⟩ := buildGraph_fold_shape pred color origVerts
    { origEdges := origEdges, origVerts := origVerts,
      verts := [] ++ (origVerts.filter (fun ov => !(color ov == 0))).map mkAVertex,
      edges := [], work := [], placeStep := 0, nextWeid := 0, errors := 0 }
  constructor
  · rw [h2]
    simp
  · rw [h1]
    simp

/-! Claim C2: the transactional behavior of placeTryEdge.  The placement
recursion placeIterate touches ranks only after logging the previous rank
in storedRank of a freshly pushed vertex; this is captured by a relation
between the state before and after any placement recursion. -/

/-- The queue coherence invariant during placement: the onWorkList flag of
a vertex holds exactly when its id sits on the (duplicate-free) queue. -/
def INVQ (s : AcycState) : Prop :=
  (∀ x v, findVtx s x = some v → (v.onWorkList = true ↔ x ∈ s.work)) ∧ s.work.Nodup

/-- What one run of the placement recursion can do to the state: edges and
counters untouched, queue only appended, vertices off the final queue
untouched, storedRank of vertices already queued untouched, and storedRank
of newly queued vertices equal to their rank on entry. -/
def PlaceRel (s t : AcycState) : Prop :=
  INVQ t
  ∧ t.edges = s.edges ∧ t.origEdges = s.origEdges ∧ t.placeStep = s.placeStep
  ∧ (∃ d, t.work = s.work ++ d)
  ∧ (∀ x, (findVtx t x).isSome = (findVtx s x).isSome)
  ∧ (∀ x, x ∉ t.work → findVtx t x = findVtx s x)
  ∧ (∀ x ∈ s.work, ∀ v v2, findVtx s x = some v → findVtx t x = some v2 →
      v2.storedRank = v.storedRank)
  ∧ (∀ x, x ∈ t.work → x ∉ s.work →
      ∃ v v2, findVtx s x = some v ∧ findVtx t x = some v2 ∧ v2.storedRank = v.rank)

theorem PlaceRel.refl (s : AcycState) (h : INVQ s) : PlaceRel s s :=
  ⟨h, rfl, rfl, rfl, ⟨[], by simp⟩, fun _ => rfl, fun _ _ => rfl,
   fun _ _ v v2 h1 h2 => by rw [h1] at h2; injection h2 with h3; rw [h3],
   fun x hx hnx => absurd hx hnx⟩

theorem PlaceRel.trans {s m t : AcycState} (h1 : PlaceRel s m) (h2 : PlaceRel m t) :
    PlaceRel s t := by
  obtain ⟨hi1, he1, ho1, hp1, ⟨d1, hw1⟩, hs1, hu1, hq1, hn1⟩ := h1
  obtain ⟨hi2, he2, ho2, hp2, ⟨d2, hw2⟩, hs2, hu2, hq2, hn2⟩ := h2
  have hmem : ∀ x : Nat, x ∈ m.work → x ∈ t.work := by
    intro x hx
    rw [hw2]; exact List.mem_append_left _ hx
  have hnotm : ∀ x : Nat, x ∉ t.work → x ∉ m.work := fun x hx hmx => hx (hmem x hmx)
  refine ⟨hi2, he2.trans he1, ho2.trans ho1, hp2.trans hp1, ?_, ?_, ?_, ?_, ?_⟩
  · exact ⟨d1 ++ d2, by rw [hw2, hw1, List.append_assoc]⟩
  · intro x; rw [hs2, hs1]
  · intro x hx
    rw [hu2 x hx, hu1 x (hnotm x hx)]
  · intro x hx v v2 hv hv2
    have hxm : x ∈ m.work := by rw [hw1]; exact List.mem_append_left _ hx
    have hsome : (findVtx m x).isSome = true := by
      rw [hs1, hv]; rfl
    obtain ⟨vm, hm⟩ := Option.isSome_iff_exists.mp hsome
    rw [← hq1 x hx v vm hv hm]
    exact hq2 x hxm vm v2 hm hv2
  · intro x hx hnx
    by_cases hxm : x ∈ m.work
    · obtain ⟨v, vm, hv, hvm, hst⟩ := hn1 x hxm hnx
      have hsome : (findVtx t x).isSome = true := by
        rw [hs2, hvm]; rfl
      obtain ⟨v2, ht⟩ := Option.isSome_iff_exists.mp hsome
      refine ⟨v, v2, hv, ht, ?_⟩
      rw [hq2 x hxm vm v2 hvm ht, hst]
    · obtain ⟨vm, v2, hvm, hv2, hst⟩ := hn2 x hx hxm
      rw [hu1 x hxm] at hvm
      exact ⟨vm, v2, hvm, hv2, hst⟩

@[simp] theorem workPush_placeStep (s : AcycState) (id : Nat) :
    (workPush s id).placeStep = s.placeStep := by
  unfold workPush
  cases findVtx s id with
  | none => rfl
  | some v => by_cases h : v.onWorkList <;> simp [h]

theorem findVtx_updVtx_self (s : AcycState) (id : Nat) (v : WorkVertex)
    (f : WorkVertex → WorkVertex) (hv : findVtx s id = some v)
    (hf : ∀ w, (f w).wvid = w.wvid) :
    findVtx (updVtx s id f) id = some (f v) := by
  rw [findVtx_updVtx s id id f hf, hv]
  have hid : v.wvid = id := (findVtx_some s id v hv).2
  simp [Option.map_some', hid]

theorem findVtx_updVtx_ne (s : AcycState) (id q : Nat)
    (f : WorkVertex → WorkVertex) (hq : q ≠ id) (hf : ∀ w, (f w).wvid = w.wvid) :
    findVtx (updVtx s id f) q = findVtx s q := by
  rw [findVtx_updVtx s id q f hf]
  cases hx : findVtx s q with
  | none => rfl
  | some u =>
    have hub : (u.wvid == id) = false :=
      beq_eq_false_iff_ne.mpr ((findVtx_some s q u hx).2 ▸ hq)
    have hni : ¬ ((u.wvid == id) = true) := by simp [hub]
    simp only [Option.map_some', if_neg hni]

theorem findVtx_workPush_self (s : AcycState) (id : Nat) (v : WorkVertex)
    (hv : findVtx s id = some v) (hflag : v.onWorkList = false) :
    findVtx (workPush s id) id = some ({ v with onWorkList := true }) := by
  unfold workPush
  rw [hv]
  simp only [hflag, Bool.false_eq_true, if_false, findVtx_mk_work]
  exact findVtx_updVtx_self s id v _ hv (fun _ => rfl)

/-- The visit step of placeIterate on a vertex not yet on the work queue:
mark the user slot, save storedRank, push, set the rank.  The saved
storedRank is the rank on entry, and only this vertex changes. -/
theorem placeVisitNew (s D : AcycState) (vid cr : Nat) (v : WorkVertex)
    (hinv : INVQ s) (hv : findVtx s vid = some v) (hflag : v.onWorkList = false)
    (hD : D = updVtx (workPush (updVtx (updVtx s vid
        (fun w => { w with user := s.placeStep }))
        vid (fun w => { w with storedRank := w.rank })) vid)
      vid (fun w => { w with rank := cr })) :
    PlaceRel s D ∧ D.work = s.work ++ [vid]
    ∧ findVtx D vid
      = some { wvid := v.wvid, origv := v.origv, rank := cr, user := s.placeStep,
               storedRank := v.rank, onWorkList := true, deleted := v.deleted } := by
  subst hD
  have hvid : v.wvid = vid := (findVtx_some s vid v hv).2
  have hvnot : vid ∉ s.work := by
    intro hm
    have := (hinv.1 vid v hv).mpr hm
    rw [hflag] at this
    cases this
  have hA : findVtx (updVtx s vid (fun w => { w with user := s.placeStep })) vid
      = some { wvid := v.wvid, origv := v.origv, rank := v.rank,
               user := s.placeStep, storedRank := v.storedRank,
               onWorkList := v.onWorkList, deleted := v.deleted } :=
    findVtx_updVtx_self s vid v _ hv (fun _ => rfl)
  have hB : findVtx (updVtx (updVtx s vid (fun w => { w with user := s.placeStep }))
      vid (fun w => { w with storedRank := w.rank })) vid
      = some { wvid := v.wvid, origv := v.origv, rank := v.rank,
               user := s.placeStep, storedRank := v.rank,
               onWorkList := v.onWorkList, deleted := v.deleted } :=
    findVtx_updVtx_self _ vid _ _ hA (fun _ => rfl)
  have hBflag :
      ({ wvid := v.wvid, origv := v.origv, rank := v.rank, user := s.placeStep,
         storedRank := v.rank, onWorkList := v.onWorkList,
         deleted := v.deleted } : WorkVertex).onWorkList = false := hflag
  have hC : findVtx (workPush (updVtx (updVtx s vid
      (fun w => { w with user := s.placeStep }))
      vid (fun w => { w with storedRank := w.rank })) vid) vid
      = some { wvid := v.wvid, origv := v.origv, rank := v.rank,
               user := s.placeStep, storedRank := v.rank,
               onWorkList := true, deleted := v.deleted } :=
    findVtx_workPush_self _ vid _ hB hBflag
  have hCwork : (workPush (updVtx (updVtx s vid
      (fun w => { w with user := s.placeStep }))
      vid (fun w => { w with storedRank := w.rank })) vid).work
      = s.work ++ [vid] :=
    workPush_work_append _ vid _ hB hBflag
  have hDv : findVtx (updVtx (workPush (updVtx (updVtx s vid
      (fun w => { w with user := s.placeStep }))
      vid (fun w => { w with storedRank := w.rank })) vid)
      vid (fun w => { w with rank := cr })) vid
      = some { wvid := v.wvid, origv := v.origv, rank := cr,
               user := s.placeStep, storedRank := v.rank,
               onWorkList := true, deleted := v.deleted } :=
    findVtx_updVtx_self _ vid _ _ hC (fun _ => rfl)
  have hDwork : (updVtx (workPush (updVtx (updVtx s vid
      (fun w => { w with user := s.placeStep }))
      vid (fun w => { w with storedRank := w.rank })) vid)
      vid (fun w => { w with rank := cr })).work = s.work ++ [vid] := by
    rw [updVtx_work, hCwork]
  have hne : ∀ q : Nat, q ≠ vid →
      findVtx (updVtx (workPush (updVtx (updVtx s vid
        (fun w => { w with user := s.placeStep }))
        vid (fun w => { w with storedRank := w.rank })) vid)
        vid (fun w => { w with rank := cr })) q = findVtx s q := by
    intro q hq
    rw [findVtx_updVtx_ne _ vid q (fun w => { w with rank := cr }) hq (fun _ => rfl),
      findVtx_workPush_ne _ vid q hq,
      findVtx_updVtx_ne _ vid q (fun w => { w with storedRank := w.rank }) hq
        (fun _ => rfl),
      findVtx_updVtx_ne _ vid q (fun w => { w with user := s.placeStep }) hq
        (fun _ => rfl)]
  refine ⟨⟨⟨?_, ?_⟩, by simp, by simp, by simp, ⟨[vid], hDwork⟩, ?_, ?_, ?_, ?_⟩,
    hDwork, hDv⟩
  · intro x u hu
    by_cases hx : x = vid
    · subst hx
      rw [hDv] at hu
      injection hu with hu2
      rw [← hu2, hDwork]
      simp
    · rw [hne x hx] at hu
      rw [hDwork]
      constructor
      · intro hflagu
        exact List.mem_append_left _ ((hinv.1 x u hu).mp hflagu)
      · intro hmx
        rcases List.mem_append.mp hmx with hmx2 | hmx2
        · exact (hinv.1 x u hu).mpr hmx2
        · exact absurd (List.mem_singleton.mp hmx2) hx
  · rw [hDwork]
    rw [List.nodup_append]
    exact ⟨hinv.2, List.nodup_singleton _,
      fun a ha hb => hvnot ((List.mem_singleton.mp hb) ▸ ha)⟩
  · intro x
    by_cases hx : x = vid
    · subst hx
      simp [hDv, hv]
    · rw [hne x hx]
  · intro x hx
    have hxv : x ≠ vid := by
      intro hcontra
      subst hcontra
      exact hx (by rw [hDwork]; exact List.mem_append_right _ (List.mem_singleton.mpr rfl))
    exact hne x hxv
  · intro x hx v1 v2 hv1 hv2
    have hxv : x ≠ vid := fun hcontra => hvnot (hcontra ▸ hx)
    rw [hne x hxv, hv1] at hv2
    injection hv2 with h
    rw [h]
  · intro x hx hnx
    rw [hDwork] at hx
    rcases List.mem_append.mp hx with hx2 | hx2
    · exact absurd hx2 hnx
    · have hxv : x = vid := List.mem_singleton.mp hx2
      subst hxv
      exact ⟨v, _, hv, hDv, rfl⟩

/-- The visit step of placeIterate on a vertex already on the work queue:
only the user slot and the rank change; storedRank is untouched. -/
theorem placeVisitOld (s D : AcycState) (vid cr : Nat) (v : WorkVertex)
    (hinv : INVQ s) (hv : findVtx s vid = some v) (hflag : v.onWorkList = true)
    (hD : D = updVtx (updVtx s vid (fun w => { w with user := s.placeStep }))
      vid (fun w => { w with rank := cr })) :
    PlaceRel s D ∧ D.work = s.work
    ∧ findVtx D vid
      = some { wvid := v.wvid, origv := v.origv, rank := cr, user := s.placeStep,
               storedRank := v.storedRank, onWorkList := v.onWorkList,
               deleted := v.deleted } := by
  subst hD
  have hmem : vid ∈ s.work := (hinv.1 vid v hv).mp hflag
  have hA : findVtx (updVtx s vid (fun w => { w with user := s.placeStep })) vid
      = some { wvid := v.wvid, origv := v.origv, rank := v.rank,
               user := s.placeStep, storedRank := v.storedRank,
               onWorkList := v.onWorkList, deleted := v.deleted } :=
    findVtx_updVtx_self s vid v _ hv (fun _ => rfl)
  have hDv : findVtx (updVtx (updVtx s vid (fun w => { w with user := s.placeStep }))
      vid (fun w => { w with rank := cr })) vid
      = some { wvid := v.wvid, origv := v.origv, rank := cr,
               user := s.placeStep, storedRank := v.storedRank,
               onWorkList := v.onWorkList, deleted := v.deleted } :=
    findVtx_updVtx_self _ vid _ _ hA (fun _ => rfl)
  have hne : ∀ q : Nat, q ≠ vid →
      findVtx (updVtx (updVtx s vid (fun w => { w with user := s.placeStep }))
        vid (fun w => { w with rank := cr })) q = findVtx s q := by
    intro q hq
    rw [findVtx_updVtx_ne _ vid q (fun w => { w with rank := cr }) hq (fun _ => rfl),
      findVtx_updVtx_ne _ vid q (fun w => { w with user := s.placeStep }) hq
        (fun _ => rfl)]
  refine ⟨⟨⟨?_, ?_⟩, by simp, by simp, by simp, ⟨[], by simp⟩, ?_, ?_, ?_, ?_⟩,
    by simp, hDv⟩
  · intro x u hu
    by_cases hx : x = vid
    · subst hx
      rw [hDv] at hu
      injection hu with hu2
      rw [← hu2]
      simp only [updVtx_work]
      rw [hflag]
      simp [hmem]
    · rw [hne x hx] at hu
      simpa using hinv.1 x u hu
  · simpa using hinv.2
  · intro x
    by_cases hx : x = vid
    · subst hx
      simp [hDv, hv]
    · rw [hne x hx]
  · intro x hx
    simp only [updVtx_work] at hx
    by_cases hxv : x = vid
    · exact absurd (hxv ▸ hmem) hx
    · exact hne x hxv
  · intro x hx v1 v2 hv1 hv2
    by_cases hxv : x = vid
    · subst hxv
      rw [hv] at hv1
      injection hv1 with h1
      rw [hDv] at hv2
      injection hv2 with h2
      rw [← h1, ← h2]
    · rw [hne x hxv, hv1] at hv2
      injection hv2 with h
      rw [h]
  · intro x hx hnx
    simp only [updVtx_work] at hx
    exact absurd hx hnx

/-- The user-clearing step at the end of a successful placeIterate call:
the touched vertex is already on the queue, and neither rank, storedRank
nor the queue change. -/
theorem placeClearStep (s : AcycState) (vid : Nat) (v : WorkVertex)
    (hinv : INVQ s) (hv : findVtx s vid = some v) (hmem : vid ∈ s.work) :
    PlaceRel s (updVtx s vid (fun w => { w with user := 0 })) := by
  have hDv : findVtx (updVtx s vid (fun w => { w with user := 0 })) vid
      = some { wvid := v.wvid, origv := v.origv, rank := v.rank,
               user := 0, storedRank := v.storedRank,
               onWorkList := v.onWorkList, deleted := v.deleted } :=
    findVtx_updVtx_self s vid v _ hv (fun _ => rfl)
  have hne : ∀ q : Nat, q ≠ vid →
      findVtx (updVtx s vid (fun w => { w with user := 0 })) q = findVtx s q := by
    intro q hq
    rw [findVtx_updVtx_ne _ vid q (fun w => { w with user := 0 }) hq (fun _ => rfl)]
  refine ⟨⟨?_, ?_⟩, by simp, by simp, by simp, ⟨[], by simp⟩, ?_, ?_, ?_, ?_⟩
  · intro x u hu
    by_cases hx : x = vid
    · subst hx
      rw [hDv] at hu
      injection hu with hu2
      rw [← hu2]
      simp only [updVtx_work]
      exact hinv.1 _ v hv
    · rw [hne x hx] at hu
      simpa using hinv.1 x u hu
  · simpa using hinv.2
  · intro x
    by_cases hx : x = vid
    · subst hx
      simp [hDv, hv]
    · rw [hne x hx]
  · intro x hx
    simp only [updVtx_work] at hx
    by_cases hxv : x = vid
    · exact absurd (hxv ▸ hmem) hx
    · exact hne x hxv
  · intro x hx v1 v2 hv1 hv2
    by_cases hxv : x = vid
    · subst hxv
      rw [hv] at hv1
      injection hv1 with h1
      rw [hDv] at hv2
      injection hv2 with h2
      rw [← h1, ← h2]
    · rw [hne x hxv, hv1] at hv2
      injection hv2 with h
      rw [h]
  · intro x hx hnx
    simp only [updVtx_work] at hx
    exact absurd hx hnx

/-- The out-edge loop of the placement recursion preserves the relation,
given that the recursive call does. -/
theorem placeIterateList_rel
    (f : AcycState → Nat → Nat → Bool × AcycState)
    (hf : ∀ (s : AcycState) (vid cr : Nat), INVQ s → PlaceRel s (f s vid cr).2) :
    ∀ (l : List WorkEdge) (s : AcycState) (cr : Nat), INVQ s →
      PlaceRel s (placeIterateList f s l cr).2 := by
  intro l
  induction l with
  | nil =>
    intro s cr h
    exact PlaceRel.refl s h
  | cons e rest ih =>
    intro s cr h
    cases hc : (!(e.weight == 0) && !e.cutable) with
    | false =>
      simp only [placeIterateList, hc, Bool.false_eq_true, if_false]
      exact ih s cr h
    | true =>
      rcases hr : f s e.dst (cr + 1) with ⟨b, s1⟩
      have h1 : PlaceRel s s1 := by
        have h2 := hf s e.dst (cr + 1) h
        rw [hr] at h2
        exact h2
      cases b with
      | true =>
        simp only [placeIterateList, hc, if_true, hr]
        exact h1
      | false =>
        simp only [placeIterateList, hc, if_true, hr]
        exact PlaceRel.trans h1 (ih s1 cr h1.1)

/-- Any run of the placement recursion relates its input state to its
output state: storedRank is a faithful per-attempt undo log. -/
theorem placeIterate_rel :
    ∀ (fuel : Nat) (s : AcycState) (vid cr : Nat), INVQ s →
      PlaceRel s (placeIterate fuel s vid cr).2 := by
  intro fuel
  induction fuel with
  | zero =>
    intro s vid cr h
    exact PlaceRel.refl s h
  | succ fuel ih =>
    intro s vid cr h
    cases hv : findVtx s vid with
    | none =>
      simp only [placeIterate, hv]
      exact PlaceRel.refl s h
    | some v =>
      by_cases h1 : cr ≤ v.rank
      · simp only [placeIterate, hv, if_pos h1]
        exact PlaceRel.refl s h
      · cases h2 : (v.user == s.placeStep) with
        | true =>
          simp only [placeIterate, hv, if_neg h1, h2, if_true]
          exact PlaceRel.refl s h
        | false =>
          cases h3 : v.onWorkList with
          | false =>
            obtain ⟨hrel, hwork, hfound⟩ := placeVisitNew s
              (updVtx (workPush (updVtx (updVtx s vid
                  (fun w => { w with user := s.placeStep }))
                  vid (fun w => { w with storedRank := w.rank })) vid)
                vid (fun w => { w with rank := cr }))
              vid cr v h hv h3 rfl
            rcases hres : placeIterateList (placeIterate fuel)
                (updVtx (workPush (updVtx (updVtx s vid
                    (fun w => { w with user := s.placeStep }))
                    vid (fun w => { w with storedRank := w.rank })) vid)
                  vid (fun w => { w with rank := cr }))
                (outEdges (updVtx (workPush (updVtx (updVtx s vid
                    (fun w => { w with user := s.placeStep }))
                    vid (fun w => { w with storedRank := w.rank })) vid)
                  vid (fun w => { w with rank := cr })) vid)
                cr with ⟨b, s4⟩
            have h4 : PlaceRel (updVtx (workPush (updVtx (updVtx s vid
                (fun w => { w with user := s.placeStep }))
                vid (fun w => { w with storedRank := w.rank })) vid)
                vid (fun w => { w with rank := cr })) s4 := by
              have h5 := placeIterateList_rel (placeIterate fuel) ih
                (outEdges (updVtx (workPush (updVtx (updVtx s vid
                    (fun w => { w with user := s.placeStep }))
                    vid (fun w => { w with storedRank := w.rank })) vid)
                  vid (fun w => { w with rank := cr })) vid)
                (updVtx (workPush (updVtx (updVtx s vid
                    (fun w => { w with user := s.placeStep }))
                    vid (fun w => { w with storedRank := w.rank })) vid)
                  vid (fun w => { w with rank := cr }))
                cr hrel.1
              rw [hres] at h5
              exact h5
            have hSD : PlaceRel s s4 := PlaceRel.trans hrel h4
            cases b with
            | true =>
              simp only [placeIterate, hv, if_neg h1, h2, Bool.false_eq_true,
                if_false, h3, Bool.not_false, if_true, hres]
              exact hSD
            | false =>
              have hmem4 : vid ∈ s4.work := by
                obtain ⟨d, hd⟩ := h4.2.2.2.2.1
                rw [hd]
                refine List.mem_append_left _ ?_
                rw [hwork]
                exact List.mem_append_right _ (List.mem_singleton.mpr rfl)
              have hsome4 : (findVtx s4 vid).isSome = true := by
                rw [h4.2.2.2.2.2.1 vid, hfound]
                rfl
              obtain ⟨v4, hv4⟩ := Option.isSome_iff_exists.mp hsome4
              have hclear := placeClearStep s4 vid v4 h4.1 hv4 hmem4
              simp only [placeIterate, hv, if_neg h1, h2, Bool.false_eq_true,
                if_false, h3, Bool.not_false, if_true, hres]
              exact PlaceRel.trans hSD hclear
          | true =>
            obtain ⟨hrel, hwork, hfound⟩ := placeVisitOld s
              (updVtx (updVtx s vid (fun w => { w with user := s.placeStep }))
                vid (fun w => { w with rank := cr }))
              vid cr v h hv h3 rfl
            rcases hres : placeIterateList (placeIterate fuel)
                (updVtx (updVtx s vid (fun w => { w with user := s.placeStep }))
                  vid (fun w => { w with rank := cr }))
                (outEdges (updVtx (updVtx s vid
                    (fun w => { w with user := s.placeStep }))
                  vid (fun w => { w with rank := cr })) vid)
                cr with ⟨b, s4⟩
            have h4 : PlaceRel (updVtx (updVtx s vid
                (fun w => { w with user := s.placeStep }))
                vid (fun w => { w with rank := cr })) s4 := by
              have h5 := placeIterateList_rel (placeIterate fuel) ih
                (outEdges (updVtx (updVtx s vid
                    (fun w => { w with user := s.placeStep }))
                  vid (fun w => { w with rank := cr })) vid)
                (updVtx (updVtx s vid (fun w => { w with user := s.placeStep }))
                  vid (fun w => { w with rank := cr }))
                cr hrel.1
              rw [hres] at h5
              exact h5
            have hSD : PlaceRel s s4 := PlaceRel.trans hrel h4
            cases b with
            | true =>
              simp only [placeIterate, hv, if_neg h1, h2, Bool.false_eq_true,
                if_false, h3, Bool.not_true, if_true, hres]
              exact hSD
            | false =>
              have hmem4 : vid ∈ s4.work := by
                obtain ⟨d, hd⟩ := h4.2.2.2.2.1
                rw [hd]
                refine List.mem_append_left _ ?_
                rw [hwork]
                exact (h.1 vid v hv).mp h3
              have hsome4 : (findVtx s4 vid).isSome = true := by
                rw [h4.2.2.2.2.2.1 vid, hfound]
                rfl
              obtain ⟨v4, hv4⟩ := Option.isSome_iff_exists.mp hsome4
              have hclear := placeClearStep s4 vid v4 h4.1 hv4 hmem4
              simp only [placeIterate, hv, if_neg h1, h2, Bool.false_eq_true,
                if_false, h3, Bool.not_true, if_true, hres]
              exact PlaceRel.trans hSD hclear

@[simp] theorem workPop_edges (s : AcycState) : (workPop s).edges = s.edges := by
  unfold workPop
  cases hw : s.work <;> simp [hw]

@[simp] theorem workPop_origEdges (s : AcycState) :
    (workPop s).origEdges = s.origEdges := by
  unfold workPop
  cases hw : s.work <;> simp [hw]

@[simp] theorem updVtx_origVerts (s : AcycState) (id : Nat)
    (f : WorkVertex → WorkVertex) : (updVtx s id f).origVerts = s.origVerts := rfl

theorem rankOf_updVtx_of_rank_eq (s : AcycState) (id : Nat)
    (f : WorkVertex → WorkVertex) (x : Nat)
    (hf : ∀ w, (f w).wvid = w.wvid) (hr : ∀ w, (f w).rank = w.rank) :
    rankOf (updVtx s id f) x = rankOf s x := by
  unfold rankOf
  rw [findVtx_updVtx s id x f hf]
  cases hx : findVtx s x with
  | none => rfl
  | some u =>
    simp only [Option.map_some']
    by_cases hb : (u.wvid == id) = true
    · simp [hb, hr]
    · simp [hb]

theorem rankOf_workPop (s : AcycState) (x : Nat) :
    rankOf (workPop s) x = rankOf s x := by
  unfold workPop
  cases hw : s.work with
  | nil => rfl
  | cons a rest =>
    have : rankOf { updVtx s a (fun w => { w with onWorkList := false }) with
        work := rest } x = rankOf (updVtx s a (fun w => { w with onWorkList := false })) x := rfl
    rw [this]
    exact rankOf_updVtx_of_rank_eq s a _ x (fun _ => rfl) (fun _ => rfl)

/-- The commit drain never changes a rank, an edge or an original edge. -/
theorem drainCommitAux_spec :
    ∀ (n : Nat) (s : AcycState),
      (∀ x, rankOf (drainCommitAux n s) x = rankOf s x)
      ∧ (drainCommitAux n s).edges = s.edges
      ∧ (drainCommitAux n s).origEdges = s.origEdges := by
  intro n
  induction n with
  | zero => intro s; exact ⟨fun _ => rfl, rfl, rfl⟩
  | succ n ih =>
    intro s
    cases hw : s.work with
    | nil => simp [drainCommitAux, hw]
    | cons a rest =>
      obtain ⟨ih1, ih2, ih3⟩ := ih (workPop s)
      refine ⟨?_, ?_, ?_⟩
      · intro x
        rw [show drainCommitAux (n + 1) s = drainCommitAux n (workPop s) by
          simp [drainCommitAux, hw]]
        rw [ih1 x, rankOf_workPop]
      · rw [show drainCommitAux (n + 1) s = drainCommitAux n (workPop s) by
          simp [drainCommitAux, hw]]
        rw [ih2, workPop_edges]
      · rw [show drainCommitAux (n + 1) s = drainCommitAux n (workPop s) by
          simp [drainCommitAux, hw]]
        rw [ih3, workPop_origEdges]

/-- The rollback drain restores, for every queued vertex, the rank from
storedRank, touches no other vertex, and leaves edges alone. -/
theorem drainRestoreAux_spec :
    ∀ (n : Nat) (s : AcycState), s.work.length ≤ n → s.work.Nodup →
      (∀ x, x ∉ s.work → findVtx (drainRestoreAux n s) x = findVtx s x)
      ∧ (∀ x ∈ s.work, ∀ v, findVtx s x = some v →
          ∃ v2, findVtx (drainRestoreAux n s) x = some v2 ∧ v2.rank = v.storedRank)
      ∧ (drainRestoreAux n s).edges = s.edges
      ∧ (drainRestoreAux n s).origEdges = s.origEdges := by
  intro n
  induction n with
  | zero =>
    intro s h _
    have hw : s.work = [] := List.length_eq_zero.mp (Nat.le_zero.mp h)
    refine ⟨fun x _ => ?_, fun x hx => ?_, ?_, ?_⟩
    · simp [drainRestoreAux]
    · rw [hw] at hx; cases hx
    · simp [drainRestoreAux]
    · simp [drainRestoreAux]
  | succ n ih =>
    intro s h hnd
    cases hw : s.work with
    | nil =>
      refine ⟨fun x _ => ?_, fun x hx => ?_, ?_, ?_⟩
      · simp [drainRestoreAux, hw]
      · cases hx
      · simp [drainRestoreAux, hw]
      · simp [drainRestoreAux, hw]
    | cons a rest =>
      rw [hw] at h hnd
      have hrest : rest.Nodup := (List.nodup_cons.mp hnd).2
      have hanot : a ∉ rest := (List.nodup_cons.mp hnd).1
      have hunf : drainRestoreAux (n + 1) s
          = drainRestoreAux n (updVtx (workPop s) a
              (fun w => { w with rank := w.storedRank })) := by
        simp [drainRestoreAux, hw]
      have hpop : findVtx (workPop s) a
          = Option.map (fun w => if w.wvid == a
              then { w with onWorkList := false } else w) (findVtx s a) := by
        unfold workPop
        rw [hw, findVtx_mk_work]
        exact findVtx_updVtx s a a _ (fun _ => rfl)
      have hpop_ne : ∀ q : Nat, q ≠ a → findVtx (workPop s) q = findVtx s q := by
        intro q hq
        unfold workPop
        rw [hw, findVtx_mk_work]
        exact findVtx_updVtx_ne s a q (fun w => { w with onWorkList := false }) hq
          (fun _ => rfl)
      have hstep_ne : ∀ q : Nat, q ≠ a →
          findVtx (updVtx (workPop s) a (fun w => { w with rank := w.storedRank })) q
            = findVtx s q := by
        intro q hq
        rw [findVtx_updVtx_ne _ a q (fun w => { w with rank := w.storedRank }) hq
          (fun _ => rfl)]
        exact hpop_ne q hq
      have hstep_work : (updVtx (workPop s) a
          (fun w => { w with rank := w.storedRank })).work = rest := by
        rw [updVtx_work, workPop_work, hw]
        rfl
      obtain ⟨ih1, ih2, ih3, ih4⟩ := ih
        (updVtx (workPop s) a (fun w => { w with rank := w.storedRank }))
        (by rw [hstep_work]; exact Nat.le_of_succ_le_succ (by simpa using h))
        (by rw [hstep_work]; exact hrest)
      refine ⟨?_, ?_, ?_, ?_⟩
      · intro x hx
        have hxa : x ≠ a := fun hc => hx (hc ▸ List.mem_cons_self _ _)
        have hxr : x ∉ rest := fun hc => hx (List.mem_cons_of_mem _ hc)
        rw [hunf, ih1 x (by rw [hstep_work]; exact hxr), hstep_ne x hxa]
      · intro x hx v hv
        rcases List.mem_cons.mp hx with rfl | hxr
        · have hself : findVtx (updVtx (workPop s) x
              (fun w => { w with rank := w.storedRank })) x
              = some { wvid := v.wvid, origv := v.origv, rank := v.storedRank,
                       user := v.user, storedRank := v.storedRank,
                       onWorkList := false, deleted := v.deleted } := by
            have hpopx : findVtx (workPop s) x
                = some { wvid := v.wvid, origv := v.origv, rank := v.rank,
                         user := v.user, storedRank := v.storedRank,
                         onWorkList := false, deleted := v.deleted } := by
              rw [hpop, hv]
              have hwv : v.wvid = x := (findVtx_some s x v hv).2
              simp [Option.map_some', hwv]
            exact findVtx_updVtx_self _ x _ _ hpopx (fun _ => rfl)
          refine ⟨{ wvid := v.wvid, origv := v.origv, rank := v.storedRank,
                    user := v.user, storedRank := v.storedRank,
                    onWorkList := false, deleted := v.deleted }, ?_, rfl⟩
          rw [hunf, ih1 x (by rw [hstep_work]; exact hanot), hself]
        · have hxa : x ≠ a := fun hc => hanot (hc ▸ hxr)
          have hsv : findVtx (updVtx (workPop s) a
              (fun w => { w with rank := w.storedRank })) x = some v := by
            rw [hstep_ne x hxa]; exact hv
          obtain ⟨v2, hv2, hr2⟩ := ih2 x (by rw [hstep_work]; exact hxr) v hsv
          exact ⟨v2, by rw [hunf]; exact hv2, hr2⟩
      · rw [hunf, ih3, updVtx_edges, workPop_edges]
      · rw [hunf, ih4, updVtx_origEdges, workPop_origEdges]

theorem findEdge_congr (s t : AcycState) (q : Nat) (h : s.edges = t.edges) :
    findEdge s q = findEdge t q := by
  unfold findEdge
  rw [h]

theorem findVtx_congr (s t : AcycState) (q : Nat) (h : s.verts = t.verts) :
    findVtx s q = findVtx t q := by
  unfold findVtx
  rw [h]

/-- One cut pass over the original edges keeps every already-cut id cut. -/
theorem cutPass_preserves (l : List OrigEdge) (oid q : Nat)
    (h : ∀ x ∈ l, x.oeid = q → x.cut = true) :
    ∀ x ∈ l.map (fun y => if y.oeid == oid then { y with cut := true } else y),
      x.oeid = q → x.cut = true := by
  intro x hx hq
  obtain ⟨y, hy, rfl⟩ := List.mem_map.mp hx
  by_cases hb : (y.oeid == oid) = true
  · simp [hb]
  · simp only [hb, if_false, Bool.false_eq_true] at hq ⊢
    exact h y hy (by simpa using hq)

/-- The cut fold of cutOrigEdge keeps every already-cut id cut. -/
theorem cutFold_preserves :
    ∀ (g : List Nat) (l : List OrigEdge) (q : Nat),
      (∀ x ∈ l, x.oeid = q → x.cut = true) →
      ∀ x ∈ g.foldl
          (fun oes oid =>
            oes.map (fun oe => if oe.oeid == oid then { oe with cut := true } else oe))
          l,
        x.oeid = q → x.cut = true := by
  intro g
  induction g with
  | nil => intro l q h; exact h
  | cons oid g2 ih =>
    intro l q h
    rw [List.foldl_cons]
    exact ih _ q (cutPass_preserves l oid q h)

/-- The cut fold of cutOrigEdge cuts every original edge whose id is in
the group. -/
theorem cutFold_establishes :
    ∀ (g : List Nat) (l : List OrigEdge) (q : Nat), q ∈ g →
      ∀ x ∈ g.foldl
          (fun oes oid =>
            oes.map (fun oe => if oe.oeid == oid then { oe with cut := true } else oe))
          l,
        x.oeid = q → x.cut = true := by
  intro g
  induction g with
  | nil => intro l q hq; cases hq
  | cons oid g2 ih =>
    intro l q hq
    rcases List.mem_cons.mp hq with rfl | hq2
    · rw [List.foldl_cons]
      refine cutFold_preserves g2 _ q ?_
      intro x hx hxe
      obtain ⟨y, hy, rfl⟩ := List.mem_map.mp hx
      by_cases hb : (y.oeid == q) = true
      · simp [hb]
      · simp only [hb, if_false, Bool.false_eq_true] at hxe ⊢
        exact absurd (by simpa using hxe) (by simpa using hb)
    · rw [List.foldl_cons]
      exact ih _ q hq2

/-- cutOrigEdge cuts every original edge recorded in the EdgeGroup of the
cut work edge. -/
theorem cutOrigEdge_cuts (s : AcycState) (id : Nat) (e : WorkEdge)
    (he : findEdge s id = some e) :
    ∀ oe ∈ (cutOrigEdge s id).origEdges, oe.oeid ∈ e.grp → oe.cut = true := by
  unfold cutOrigEdge
  rw [he]
  intro oe hoe hmem
  exact cutFold_establishes e.grp _ oe.oeid hmem oe hoe rfl

/-- Claim C2: placeTryEdge is transactional.  When the reranking pass
placeIterate reports a loop, every original edge in the EdgeGroup of the
tried edge is cut, the work edge itself is removed (after being flipped
back to cutable and marked cut), the work queue is drained, and every rank
returns to its pre-attempt value: the queue held exactly the vertices
mutated during the attempt, each with storedRank holding the pre-attempt
rank.  When no loop is reported the queue is merely emptied: the new ranks
are kept and no edge is touched. -/
theorem placeTryEdge_spec
    (fuel : Nat) (s : AcycState) (eid : Nat) (e : WorkEdge) (loop : Bool)
    (t1 : AcycState)
    (hfind : findEdge s eid = some e)
    (hwork : s.work = [])
    (hflags : ∀ v ∈ s.verts, v.onWorkList = false)
    (hiter : placeIterate fuel
        (updEdge { s with placeStep := s.placeStep + 1 } eid
          (fun x => { x with cutable := false }))
        e.dst
        (rankOf (updEdge { s with placeStep := s.placeStep + 1 } eid
          (fun x => { x with cutable := false })) e.src + 1)
      = (loop, t1)) :
    (loop = true →
        (∀ oe ∈ (placeTryEdge fuel s eid).origEdges, oe.oeid ∈ e.grp → oe.cut = true)
      ∧ (∀ x ∈ (placeTryEdge fuel s eid).edges, x.weid ≠ eid)
      ∧ (placeTryEdge fuel s eid).work = []
      ∧ (∀ x, rankOf (placeTryEdge fuel s eid) x = rankOf s x))
    ∧ (loop = false →
        (placeTryEdge fuel s eid).work = []
      ∧ (∀ x, rankOf (placeTryEdge fuel s eid) x = rankOf t1 x)
      ∧ (placeTryEdge fuel s eid).edges = t1.edges) := by
  have hfind1 : findEdge { s with placeStep := s.placeStep + 1 } eid = some e := hfind
  have hew : e.weid = eid := (findEdge_some s eid e hfind).2
  have hs1work : (updEdge { s with placeStep := s.placeStep + 1 } eid
      (fun x => { x with cutable := false })).work = s.work := rfl
  have hinv1 : INVQ (updEdge { s with placeStep := s.placeStep + 1 } eid
      (fun x => { x with cutable := false })) := by
    constructor
    · intro x v hv
      have hv2 : findVtx s x = some v := hv
      have hmem := (findVtx_some s x v hv2).1
      rw [hs1work, hwork]
      constructor
      · intro hf
        rw [hflags v hmem] at hf
        cases hf
      · intro hx
        simp at hx
    · rw [hs1work, hwork]
      exact List.nodup_nil
  have hrel : PlaceRel (updEdge { s with placeStep := s.placeStep + 1 } eid
      (fun x => { x with cutable := false })) t1 := by
    have h := placeIterate_rel fuel
      (updEdge { s with placeStep := s.placeStep + 1 } eid
        (fun x => { x with cutable := false }))
      e.dst
      (rankOf (updEdge { s with placeStep := s.placeStep + 1 } eid
        (fun x => { x with cutable := false })) e.src + 1) hinv1
    rw [hiter] at h
    exact h
  obtain ⟨hinvT, hedges, horig, hstepP, ⟨d, hd⟩, hsomeP, hnotin, hold, hnew⟩ := hrel
  constructor
  · intro hl
    subst hl
    simp only [placeTryEdge, hfind1, hiter]
    have hs4work : (delEdge (cutOrigEdge (updEdge t1 eid
        (fun x => { x with cutable := true })) eid) eid).work = t1.work := by
      simp
    have hs4verts : (delEdge (cutOrigEdge (updEdge t1 eid
        (fun x => { x with cutable := true })) eid) eid).verts = t1.verts := by
      simp
    have hnd4 : (delEdge (cutOrigEdge (updEdge t1 eid
        (fun x => { x with cutable := true })) eid) eid).work.Nodup := by
      rw [hs4work]
      exact hinvT.2
    obtain ⟨dr1, dr2, dr3, dr4⟩ := drainRestoreAux_spec
      (delEdge (cutOrigEdge (updEdge t1 eid
        (fun x => { x with cutable := true })) eid) eid).work.length
      (delEdge (cutOrigEdge (updEdge t1 eid
        (fun x => { x with cutable := true })) eid) eid)
      (Nat.le_refl _) hnd4
    have he1 : findEdge (updEdge { s with placeStep := s.placeStep + 1 } eid
        (fun x => { x with cutable := false })) eid
        = some ({ e with cutable := false } : WorkEdge) := by
      rw [findEdge_updEdge _ eid eid (fun x => { x with cutable := false })
        (fun _ => rfl), hfind1]
      simp [Option.map_some', hew]
    have het1 : findEdge t1 eid = some ({ e with cutable := false } : WorkEdge) := by
      rw [findEdge_congr t1 (updEdge { s with placeStep := s.placeStep + 1 } eid
        (fun x => { x with cutable := false })) eid hedges]
      exact he1
    have he3 : findEdge (updEdge t1 eid (fun x => { x with cutable := true })) eid
        = some ({ e with cutable := true } : WorkEdge) := by
      rw [findEdge_updEdge t1 eid eid (fun x => { x with cutable := true })
        (fun _ => rfl), het1]
      simp [Option.map_some', hew]
    have hcuts := cutOrigEdge_cuts (updEdge t1 eid
      (fun x => { x with cutable := true })) eid
      ({ e with cutable := true } : WorkEdge) he3
    refine ⟨?_, ?_, ?_, ?_⟩
    · intro oe hoe hmem
      rw [dr4, delEdge_origEdges] at hoe
      exact hcuts oe hoe hmem
    · intro x hx
      rw [dr3, delEdge_edges] at hx
      have := (List.mem_filter.mp hx).2
      simpa using this
    · exact drainRestoreAux_empties _ _ (Nat.le_refl _)
    · intro x
      by_cases hxw : x ∈ (delEdge (cutOrigEdge (updEdge t1 eid
          (fun x => { x with cutable := true })) eid) eid).work
      · have hxt1 : x ∈ t1.work := by rw [← hs4work]; exact hxw
        have hxs1 : x ∉ (updEdge { s with placeStep := s.placeStep + 1 } eid
            (fun x => { x with cutable := false })).work := by
          rw [hs1work, hwork]
          simp
        obtain ⟨v, v2, hvs1, hvt1, hst⟩ := hnew x hxt1 hxs1
        have hv4 : findVtx (delEdge (cutOrigEdge (updEdge t1 eid
            (fun x => { x with cutable := true })) eid) eid) x = some v2 := by
          rw [findVtx_congr _ _ x hs4verts]
          exact hvt1
        obtain ⟨v3, hv3, hr3⟩ := dr2 x hxw v2 hv4
        have hvs : findVtx s x = some v := hvs1
        simp only [rankOf, hv3, hvs]
        rw [hr3, hst]
      · have hxt1 : x ∉ t1.work := by rw [← hs4work]; exact hxw
        have hfx := dr1 x hxw
        have hfx2 : findVtx (delEdge (cutOrigEdge (updEdge t1 eid
            (fun x => { x with cutable := true })) eid) eid) x = findVtx t1 x :=
          findVtx_congr _ _ x hs4verts
        have hfx3 : findVtx t1 x = findVtx s x := hnotin x hxt1
        unfold rankOf
        rw [hfx, hfx2, hfx3]
  · intro hl
    subst hl
    simp only [placeTryEdge, hfind1, hiter]
    obtain ⟨dc1, dc2, dc3⟩ := drainCommitAux_spec t1.work.length t1
    exact ⟨drainCommitAux_empties _ _ (Nat.le_refl _), dc1, dc2⟩

/-- A two-vertex state about to place its single cutable work edge. -/
def wTryState : AcycState :=
  { origEdges := [{ oeid := 7, src := 1, dst := 2, weight := 1,
                    cutable := true, cut := false }],
    origVerts := [1, 2],
    verts := [{ wvid := 1, origv := 1, rank := 0, user := 0, storedRank := 0,
                onWorkList := false, deleted := false },
              { wvid := 2, origv := 2, rank := 0, user := 0, storedRank := 0,
                onWorkList := false, deleted := false }],
    edges := [{ weid := 0, src := 1, dst := 2, weight := 1, cutable := true,
                cut := false, grp := [7] }],
    work := [], placeStep := 10, nextWeid := 1, errors := 0 }

/-- The state after the reranking pass of the attempt on wTryState: vertex
2 raised to rank 1 and logged on the queue, the edge tentatively
uncutable. -/
def wTryIter : AcycState :=
  { origEdges := [{ oeid := 7, src := 1, dst := 2, weight := 1,
                    cutable := true, cut := false }],
    origVerts := [1, 2],
    verts := [{ wvid := 1, origv := 1, rank := 0, user := 0, storedRank := 0,
                onWorkList := false, deleted := false },
              { wvid := 2, origv := 2, rank := 1, user := 0, storedRank := 0,
                onWorkList := true, deleted := false }],
    edges := [{ weid := 0, src := 1, dst := 2, weight := 1, cutable := false,
                cut := false, grp := [7] }],
    work := [2], placeStep := 11, nextWeid := 1, errors := 0 }

/-- Witness for claim C2 on wTryState: the attempt succeeds, so the queue
is emptied, the new ranks are kept and no edge is touched. -/
theorem placeTryEdge_spec_witness :
    (findEdge wTryState 0
      = some { weid := 0, src := 1, dst := 2, weight := 1, cutable := true,
               cut := false, grp := [7] })
    ∧ wTryState.work = []
    ∧ ((placeTryEdge 5 wTryState 0).work = []
       ∧ (∀ x, rankOf (placeTryEdge 5 wTryState 0) x = rankOf wTryIter x)
       ∧ (placeTryEdge 5 wTryState 0).edges = wTryIter.edges) :=
  ⟨by decide, by decide,
   (placeTryEdge_spec 5 wTryState 0
     { weid := 0, src := 1, dst := 2, weight := 1, cutable := true,
       cut := false, grp := [7] }
     false wTryIter (by decide) (by decide) (by decide) (by decide)).2 rfl⟩

/-! On the acyclicity of the final original graph.  The entry point does
not make the uncut followed subgraph of the original graph acyclic on
every input: on a two-vertex cycle of uncutable edges the Out rule
reports the uncutable-cycle error, forces the offending edge cutable and
continues, and the run ends with no original edge cut and the cycle
intact, as the following computation shows. -/

/-- Running the entry point on a two-vertex cycle of uncutable edges ends
with one reported error, an empty cut set, and a directed cycle remaining
among the followed uncut original edges. -/
theorem acyclic_uncutable_cycle_remains :
    (acyclic (fun _ => true) [0, 1]
      [{ oeid := 10, src := 0, dst := 1, weight := 1, cutable := false, cut := false },
       { oeid := 11, src := 1, dst := 0, weight := 1, cutable := false,
         cut := false }]).errors = 1
    ∧ origUncutHasCycle (fun _ => true)
        (acyclic (fun _ => true) [0, 1]
          [{ oeid := 10, src := 0, dst := 1, weight := 1, cutable := false,
             cut := false },
           { oeid := 11, src := 1, dst := 0, weight := 1, cutable := false,
             cut := false }]) = true
    ∧ cutSet (acyclic (fun _ => true) [0, 1]
          [{ oeid := 10, src := 0, dst := 1, weight := 1, cutable := false,
             cut := false },
           { oeid := 11, src := 1, dst := 0, weight := 1, cutable := false,
             cut := false }]) = [] := by
  decide

end VAcyc
